import Mathlib

/-!
Verification of the music-engagement-analysis pipeline scripts.

The Python scripts are shallowly embedded: strings are modelled as `String`
(processed as `List Char`), Python `float` arithmetic is modelled by exact
rationals `ℚ`, Python dictionaries by association lists, and the regular
expressions appearing in the scripts are hand-compiled to executable scanners
over `List Char` that mirror the behaviour of the specific patterns used.
All functions are total, mirroring the fact that the modelled Python code
raises no exceptions on string inputs.
-/

namespace MusicPipeline

/-- The ASCII apostrophe character, `'`. -/
def apos : Char := Char.ofNat 39

/-- Python whitespace characters (the ASCII part of `\s` / `str.strip`). -/
def isPyWs (c : Char) : Bool :=
  c = ' ' || c = '\t' || c = '\n' || c = '\r' || c = Char.ofNat 11 || c = Char.ofNat 12

/-- ASCII lower-casing, the behaviour of Python `str.lower` on ASCII text. -/
def pyLower (c : Char) : Char :=
  if 'A' ≤ c ∧ c ≤ 'Z' then Char.ofNat (c.toNat + 32) else c

/-- Lower-case every character of a list (`str.lower`). -/
def lowerL (l : List Char) : List Char := l.map pyLower

/-- Python `str.strip`: drop whitespace from both ends. -/
def stripWs (l : List Char) : List Char :=
  ((l.dropWhile isPyWs).reverse.dropWhile isPyWs).reverse

/-- Python substring test `needle in hay`. -/
def containsSub (needle hay : List Char) : Bool :=
  match hay with
  | [] => needle.isEmpty
  | _ :: t => needle.isPrefixOf hay || containsSub needle t

/-- Python `str.split("\n")` (auxiliary accumulator form). -/
def splitNLAux (cur : List Char) : List Char → List (List Char)
  | [] => [cur.reverse]
  | c :: t => if c = '\n' then cur.reverse :: splitNLAux [] t else splitNLAux (c :: cur) t

/-- Python `str.split("\n")`. -/
def splitNL (l : List Char) : List (List Char) := splitNLAux [] l

/-- Python `"\n".join`. -/
def joinNL : List (List Char) → List Char
  | [] => []
  | [l] => l
  | l :: ls => l ++ '\n' :: joinNL ls

/-! ### Lyric metrics (scripts/04_get_lyrics.py, lines 359-386) -/

/-- A character matched by the word class of `WORD_RE = [A-Za-z0-9']+`. -/
def isWordC (c : Char) : Bool :=
  ('A' ≤ c ∧ c ≤ 'Z') || ('a' ≤ c ∧ c ≤ 'z') || ('0' ≤ c ∧ c ≤ '9') || c = apos

/-- Scanner for `WORD_RE.findall`: maximal runs of word characters, in order.
`cur` holds the (reversed) run being scanned. -/
def findWordsAux (cur : List Char) : List Char → List (List Char)
  | [] => if cur.isEmpty then [] else [cur.reverse]
  | c :: t =>
    if isWordC c then findWordsAux (c :: cur) t
    else if cur.isEmpty then findWordsAux [] t
    else cur.reverse :: findWordsAux [] t

/-- `WORD_RE.findall(text)`. -/
def findWords (l : List Char) : List (List Char) := findWordsAux [] l

/-- `_tokenize_words`: all `WORD_RE` matches, lower-cased. -/
def _tokenize_words (text : String) : List String :=
  if text = "" then []
  else (findWords text.data).map (fun w => String.mk (lowerL w))

/-- `count_words`. -/
def count_words (text : String) : Nat := (_tokenize_words text).length

/-- Size of a Python `set` built from a list (count of distinct elements,
used for `len(set(words))`). -/
def distinctAux (seen : List String) : List String → Nat
  | [] => 0
  | x :: t => if seen.contains x then distinctAux seen t else 1 + distinctAux (x :: seen) t

/-- `count_unique_words`. -/
def count_unique_words (text : String) : Nat := distinctAux [] (_tokenize_words text)

/-- Banker's rounding (round half to even) of a rational to an integer,
the behaviour of Python's built-in `round`. -/
def roundHalfEvenQ (q : ℚ) : ℤ :=
  let f := ⌊q⌋
  let r := q - f
  if r < 1/2 then f
  else if r > 1/2 then f + 1
  else if f % 2 = 0 then f else f + 1

/-- Python `round(x, 6)` modelled over exact rationals. -/
def round6 (q : ℚ) : ℚ := (roundHalfEvenQ (q * 1000000) : ℚ) / 1000000

/-- `repetition_ratio`: `round(1 - unique/total, 6)`, `0.0` on no words. -/
def repetition_ratio (text : String) : ℚ :=
  let words := _tokenize_words text
  let total : Nat := words.length
  if total = 0 then 0
  else
    let unique : Nat := distinctAux [] words
    round6 (1 - (unique : ℚ) / (total : ℚ))

/-! ### Characters used for punctuation normalization -/

/-- Right single curly quote, `’`. -/
def curlyRight : Char := Char.ofNat 0x2019

/-- Left single curly quote, `‘`. -/
def curlyLeft : Char := Char.ofNat 0x2018

/-- Left double curly quote, `“`. -/
def curlyDQL : Char := Char.ofNat 0x201C

/-- Right double curly quote, `”`. -/
def curlyDQR : Char := Char.ofNat 0x201D

/-- En dash, `–`. -/
def enDash : Char := Char.ofNat 0x2013

/-- Em dash, `—`. -/
def emDash : Char := Char.ofNat 0x2014

/-- Horizontal ellipsis, `…`. -/
def hellip : Char := Char.ofNat 0x2026

/-! ### clean_lyrics_text (scripts/04_get_lyrics.py, lines 95-353) -/

/-- Replace `\r\n` / `\r` by `\n` (the `re.sub(r"\r\n?", "\n", ...)` step). -/
def normNewlines : List Char → List Char
  | [] => []
  | [c] => [if c = '\r' then '\n' else c]
  | c :: d :: t =>
    if c = '\r' then
      if d = '\n' then '\n' :: normNewlines t else '\n' :: normNewlines (d :: t)
    else c :: normNewlines (d :: t)

/-- The section-name alternatives of the bracket-header regex
`\[(?:(?:pre|post)-?chorus|chorus|verse|bridge|intro|outro|refrain|hook|interlude|skit)[^]]*\]`. -/
def headerKeywords : List (List Char) :=
  ["prechorus", "pre-chorus", "postchorus", "post-chorus", "chorus", "verse",
   "bridge", "intro", "outro", "refrain", "hook", "interlude", "skit"].map String.data

/-- Case-insensitive test that `kw` is a prefix of `l` (for `re.IGNORECASE`). -/
def matchesCI (kw l : List Char) : Bool := lowerL (l.take kw.length) == kw

/-- Some header keyword starts here (after an opening `[`). -/
def isHdrStart (l : List Char) : Bool := headerKeywords.any (fun kw => matchesCI kw l)

/-- Drop everything up to and including the first `]` (the `[^]]*\]` part,
which cannot cross a `]`); `none` when no `]` follows. -/
def dropThroughRB : List Char → Option (List Char)
  | [] => none
  | c :: t => if c = ']' then some t else dropThroughRB t

/-- Left-to-right scan removing bracket section headers, as `re.sub` does:
a match starts at `[` followed by a keyword and runs to the first `]`.
Fuel-indexed for structural recursion; each step consumes at least one
character, so `length + 1` fuel always suffices. -/
def stripHeadersGo : Nat → List Char → List Char
  | 0, l => l
  | _ + 1, [] => []
  | fuel + 1, c :: rest =>
    if c = '[' && isHdrStart rest then
      match dropThroughRB rest with
      | some rest2 => stripHeadersGo fuel rest2
      | none => c :: stripHeadersGo fuel rest
    else c :: stripHeadersGo fuel rest

/-- Remove all bracket section headers. -/
def stripHeaders (l : List Char) : List Char := stripHeadersGo (l.length + 1) l

/-- Left-to-right scan for `re.sub(r"\(\s*([\s\S]*?)\s*\)", r"(\1)", ...)`:
each match runs from `(` to the first following `)`, and the captured group
is the content with surrounding whitespace trimmed. -/
def parenGo : Nat → List Char → List Char
  | 0, l => l
  | _ + 1, [] => []
  | fuel + 1, c :: rest =>
    if c = '(' && rest.contains ')' then
      let inner := rest.takeWhile (fun d => !(d == ')'))
      let rest2 := (rest.dropWhile (fun d => !(d == ')'))).drop 1
      '(' :: (stripWs inner ++ ')' :: parenGo fuel rest2)
    else c :: parenGo fuel rest

/-- Normalize spacing inside parentheses. -/
def parenNorm (l : List Char) : List Char := parenGo (l.length + 1) l

/-- Literal of the first footer regex, lower-cased. -/
def youMightLit : List Char := "you might also like".data

/-- Literal of the second footer regex, lower-cased. -/
def embedLit : List Char := "embed".data

/-- Does `\s*LIT\s*\n` match at the position just after a `\n`?  Since the
literal starts with a non-whitespace character, the leading `\s*` must consume
exactly the maximal whitespace run; the trailing `\s*\n` succeeds iff the
whitespace run after the literal contains a newline. -/
def footerMatches (lit rest : List Char) : Bool :=
  let r1 := rest.dropWhile isPyWs
  (lowerL (r1.take lit.length) == lit) &&
    ((r1.drop lit.length).takeWhile isPyWs).contains '\n'

/-- `re.sub(r"\n\s*LIT\s*\n.*", "\n", text, flags=IGNORECASE|DOTALL)`:
the leftmost match swallows the rest of the string and is replaced by `\n`. -/
def footerScan (lit : List Char) : List Char → List Char
  | [] => []
  | c :: t =>
    if c = '\n' && footerMatches lit t then ['\n']
    else c :: footerScan lit t

/-- Charwise form of the quote/dash replacements in `_norm_for_title_match`
(all patterns and replacements are single characters). -/
def normQuoteChar (c : Char) : Char :=
  if c = curlyRight || c = curlyLeft then apos
  else if c = curlyDQL || c = curlyDQR then '"'
  else if c = enDash || c = emDash then '-'
  else c

/-- Collapse every whitespace run to a single space (`re.sub(r"\s+", " ", s)`);
the flag records whether we are inside a run. -/
def goCW : Bool → List Char → List Char
  | _, [] => []
  | b, c :: t =>
    if isPyWs c then (if b then goCW true t else ' ' :: goCW true t)
    else c :: goCW false t

/-- `_norm_for_title_match` (identical to `_norm_for_title_match_early`):
lower, strip, normalize curly quotes and dashes, collapse whitespace. -/
def normForTitleMatch (s : List Char) : List Char :=
  goCW false ((stripWs (lowerL s)).map normQuoteChar)

/-- The `bad_phrases` list of `looks_like_description_line`. -/
def badPhrases : List (List Char) :=
  ["is the", "track off", "studio album", "highly anticipated", "featuring",
   "the track is about", "this track is about", "the song is about",
   "produced by", "released", "release", "read more"].map String.data

/-- `looks_like_description_line` (scripts/04_get_lyrics.py, lines 147-180). -/
def looksLikeDescriptionLine (tn ln : List Char) : Bool :=
  let s := stripWs ln
  if s.isEmpty then false
  else
    let sl := lowerL s
    let anyBad := badPhrases.any (fun p => containsSub p sl)
    if (!tn.isEmpty) && containsSub tn sl && anyBad then true
    else if anyBad && decide (40 < s.length) then true
    else if [hellip].isSuffixOf s || ['.', '.', '.'].isSuffixOf s then true
    else false

/-- The while-loop dropping description-like lines among the first
`max_top_nonempty = 8` non-empty lines; `k` is the remaining budget. -/
def topFilter (tn : List Char) (k : Nat) : List (List Char) → List (List Char)
  | [] => []
  | ln :: rest =>
    if k = 0 then ln :: rest
    else if (stripWs ln).isEmpty then ln :: topFilter tn k rest
    else if looksLikeDescriptionLine tn ln then topFilter tn k rest
    else ln :: topFilter tn (k - 1) rest

/-- The `language_menu` set. -/
def languageMenu : List (List Char) :=
  ["Deutsch", "Türkçe", "Русский", "Русский (Russian)", "Português", "Español",
   "Français", "Italiano", "Nederlands", "Polski", "Svenska", "한국어", "日本語",
   "中文", "العربية", "हिन्दी", "Bahasa Indonesia"].map String.data

/-- `re.fullmatch(r"\d+\s+contributors?", ln, flags=IGNORECASE)`. -/
def isContributorsLine (ln : List Char) : Bool :=
  let ds := ln.takeWhile (fun c => c.isDigit)
  let r := ln.dropWhile (fun c => c.isDigit)
  let ws := r.takeWhile isPyWs
  let r2 := r.dropWhile isPyWs
  (!ds.isEmpty) && (!ws.isEmpty) &&
    (lowerL r2 == "contributor".data || lowerL r2 == "contributors".data)

/-- `re.fullmatch(r"translations?", ln, flags=IGNORECASE)`. -/
def isTranslationsLine (ln : List Char) : Bool :=
  lowerL ln == "translation".data || lowerL ln == "translations".data

/-- The string `" lyrics"` used by the title-echo checks. -/
def lyricsSuffix : List Char := ' ' :: "lyrics".data

/-- The line-level cleanup decision (the `continue`s of the loop at
scripts/04_get_lyrics.py, lines 247-274): `true` when the line is dropped.
`tn` is the normalized track name (`_norm_for_title_match(track_name)`,
which coincides with `tn_lower` since the two normalizers are identical). -/
def dropLine (tn ln : List Char) : Bool :=
  if ln.isEmpty then true
  else if languageMenu.contains ln then true
  else if (ln.head? == some '[') && (ln.getLast? == some ']') then true
  else if (!tn.isEmpty) &&
      (let lnN := normForTitleMatch ln
       (lnN == tn ++ lyricsSuffix) ||
         (lyricsSuffix.isSuffixOf lnN && containsSub tn lnN)) then true
  else if isContributorsLine ln then true
  else if isTranslationsLine ln then true
  else false

/-- The `strong_phrases` list of `looks_like_description_anywhere`. -/
def strongPhrases : List (List Char) :=
  ["released", "music video", "released on", "released in", "premiered",
   "announced", "release was announced"].map String.data

/-- The `weak_phrases` list of `looks_like_description_anywhere`. -/
def weakPhrases : List (List Char) :=
  ["album", "in conjunction", "in anticipation", "produced by", "followed",
   "featuring", "feat."].map String.data

/-- Python `\w` on ASCII text: letters, digits, underscore. -/
def isWordChar (c : Char) : Bool := c.isAlphanum || c = '_'

/-- Word-boundary test for the character following a match. -/
def boundaryAfter : List Char → Bool
  | [] => true
  | c :: _ => !isWordChar c

/-- Does `(?:W1|W2|...)\s+single\b` match at this position?  The words start
with letters, so `\s+` must consume the maximal whitespace run. -/
def seqMatchAt (firstWords : List (List Char)) (second : List Char) (l : List Char) : Bool :=
  firstWords.any (fun w =>
    w.isPrefixOf l &&
      (let r := l.drop w.length
       (!(r.takeWhile isPyWs).isEmpty) &&
         (let r2 := r.dropWhile isPyWs
          second.isPrefixOf r2 && boundaryAfter (r2.drop second.length))))

/-- `re.search(r"\b(?:W1|...)\s+single\b", l)`: scan all positions with a word
boundary before them. -/
def searchSeqGo (firstWords : List (List Char)) (second : List Char) (prevIsWord : Bool) : List Char → Bool
  | [] => false
  | c :: t =>
    ((!prevIsWord) && seqMatchAt firstWords second (c :: t)) ||
      searchSeqGo firstWords second (isWordChar c) t

/-- Entry point of the two-word regex search (start of string is a boundary). -/
def searchSeq (firstWords : List (List Char)) (second : List Char) (l : List Char) : Bool :=
  searchSeqGo firstWords second false l

/-- Does one of the alternatives match here with a boundary after it? -/
def altMatchAt (alts : List (List Char)) (l : List Char) : Bool :=
  alts.any (fun w => w.isPrefixOf l && boundaryAfter (l.drop w.length))

/-- `re.search(r"\b(?:A1|A2|...)\b", l)` for literal alternatives. -/
def searchWordAltGo (alts : List (List Char)) (prevIsWord : Bool) : List Char → Bool
  | [] => false
  | c :: t =>
    ((!prevIsWord) && altMatchAt alts (c :: t)) ||
      searchWordAltGo alts (isWordChar c) t

/-- Entry point of the word-alternative search. -/
def searchWordAlt (alts : List (List Char)) (l : List Char) : Bool :=
  searchWordAltGo alts false l

/-- The month-name alternatives `jan(?:uary)?|feb(?:ruary)?|...` expanded:
either the optional suffix is taken or not; the regex matches iff one of the
expanded forms matches between word boundaries. -/
def monthAlts : List (List Char) :=
  ["january", "jan", "february", "feb", "march", "mar", "april", "apr", "may",
   "june", "jun", "july", "jul", "august", "aug", "september", "sep",
   "october", "oct", "november", "nov", "december", "dec"].map String.data

/-- Does `(19|20)\d{2}\b` match at this position? -/
def yearAt : List Char → Bool
  | c1 :: c2 :: c3 :: c4 :: r =>
    ((c1 = '1' && c2 = '9') || (c1 = '2' && c2 = '0')) &&
      c3.isDigit && c4.isDigit && boundaryAfter r
  | _ => false

/-- `re.search(r"\b(19|20)\d{2}\b", s)`: scan with boundary before. -/
def yearSearchGo (prevIsWord : Bool) : List Char → Bool
  | [] => false
  | c :: t => ((!prevIsWord) && yearAt (c :: t)) || yearSearchGo (isWordChar c) t

/-- Entry point of the year search. -/
def yearSearch (l : List Char) : Bool := yearSearchGo false l

/-- The `lead/debut/second/third/promotional` alternatives before `single`. -/
def leadWords : List (List Char) :=
  ["lead", "debut", "second", "third", "promotional"].map String.data

/-- The determiner alternatives before `single`. -/
def detWords : List (List Char) :=
  ["the", "a", "this", "that", "his", "her", "their", "its"].map String.data

/-- The word `single`. -/
def singleLit : List Char := "single".data

/-- `looks_like_description_anywhere` (scripts/04_get_lyrics.py, lines 277-347). -/
def looksLikeDescriptionAnywhere (tn ln : List Char) : Bool :=
  let s := stripWs ln
  if s.isEmpty then false
  else
    let sl := lowerL s
    if strongPhrases.any (fun p => containsSub p sl) && decide (30 < s.length) then true
    else if (!tn.isEmpty) && weakPhrases.any (fun p => containsSub p sl) &&
        containsSub tn sl && decide (30 < s.length) then true
    else if containsSub singleLit sl &&
        ((searchSeq leadWords singleLit sl && decide (30 < s.length)) ||
          (searchSeq detWords singleLit sl && decide (30 < s.length) &&
            (strongPhrases ++ ["album".data, "track".data, "song".data]).any
              (fun p => containsSub p sl))) then true
    else if searchWordAlt monthAlts sl && decide (20 < s.length) then true
    else if yearSearch s then
      strongPhrases.any (fun p => containsSub p sl) && decide (30 < s.length)
    else false

/-- Collapse runs of spaces/tabs to one space (`re.sub(r"[ \t]+", " ", s)`). -/
def goCS : Bool → List Char → List Char
  | _, [] => []
  | b, c :: t =>
    if c = ' ' || c = '\t' then (if b then goCS true t else ' ' :: goCS true t)
    else c :: goCS false t

/-- Collapse runs of three or more newlines to two
(`re.sub(r"\n{3,}", "\n\n", s)`); `k` counts the newlines already seen in the
current run (saturating at 2). -/
def goCN : Nat → List Char → List Char
  | _, [] => []
  | k, c :: t =>
    if c = '\n' then (if k < 2 then '\n' :: goCN (k + 1) t else goCN k t)
    else c :: goCN 0 t

/-- `normalize_whitespace` (scripts/04_get_lyrics.py, lines 65-69). -/
def normalize_whitespace (l : List Char) : List Char :=
  stripWs (goCN 0 (goCS false (normNewlines l)))

/-- The character-level stages of `clean_lyrics_text` before line handling
(lines 105-125): newline normalization, bracket-header removal, parenthesis
spacing, and the two footer cut-offs. -/
def preLineText (raw : List Char) : List Char :=
  footerScan embedLit (footerScan youMightLit (parenNorm (stripHeaders (normNewlines raw))))

/-- The line-level stages of `clean_lyrics_text` (lines 145-349): split into
stripped lines, drop top description lines, rejoin and resplit, line-level
cleanup, and the anywhere description filter. -/
def keptLines (tn text : List Char) : List (List Char) :=
  (((splitNL (joinNL (topFilter tn 8 ((splitNL text).map stripWs)))).map stripWs).filter
      (fun ln => !dropLine tn ln)).filter
    (fun ln => !looksLikeDescriptionAnywhere tn ln)

/-- `clean_lyrics_text` (scripts/04_get_lyrics.py, lines 95-353): the staged
pipeline, finished by `normalize_whitespace`, a final `strip`, and the
`"\n" +` prefix of the `return` statement. -/
def clean_lyrics_text (raw trackName : String) : String :=
  if raw = "" then ""
  else
    let tn := normForTitleMatch trackName.data
    String.mk ('\n' :: stripWs (normalize_whitespace (joinNL (keptLines tn (preLineText raw.data)))))

/-! ### Video matching (scripts/02_match_youtube_videos.py) -/

/-- A playlist entry as returned by `yt_get_all_playlist_videos`. -/
structure Video where
  video_id : String
  title : String
  published_at : String
deriving DecidableEq, Repr

/-- An output row of the matcher (`rows.append({...})`, lines 172-182). -/
structure MatchRow where
  track_id : String
  youtube_video_id : Option String
  youtube_title : Option String
  channel_title : String
  published_at : Option String
  is_official : Bool
  match_confidence : String
deriving DecidableEq, Repr

/-- The mojibake sequence replaced by `s.replace("â€™", "'")`. -/
def replaceMojibake : List Char → List Char
  | 'â' :: '€' :: '™' :: t => apos :: replaceMojibake t
  | c :: t => c :: replaceMojibake t
  | [] => []

/-- Keep `[a-z0-9\s']`, replace every other character by a space
(`re.sub(r"[^a-z0-9\s']", " ", s)`). -/
def keepAllowedChar (c : Char) : Char :=
  if ('a' ≤ c ∧ c ≤ 'z') ∨ ('0' ≤ c ∧ c ≤ '9') ∨ isPyWs c = true ∨ c = apos then c else ' '

/-- `normalize` (scripts/02_match_youtube_videos.py, lines 28-32). -/
def normalize (s : String) : String :=
  String.mk (stripWs (goCW false ((replaceMojibake (lowerL s.data)).map keepAllowedChar)))

/-- The per-video match condition of the inner loop (lines 165-170):
normalized title contains the normalized track name and
`(durations.get(id) or 0) >= 30`. -/
def isMatch (trackNorm : List Char) (durations : String → Option Int) (v : Video) : Bool :=
  containsSub trackNorm (normalize v.title).data &&
    decide (30 ≤ (durations v.video_id).getD 0)

/-- The inner loop: first playlist video satisfying `isMatch`, else `none`. -/
def chooseVideo (trackNorm : List Char) (durations : String → Option Int) :
    List Video → Option Video
  | [] => none
  | v :: vs =>
    if isMatch trackNorm durations v then some v
    else chooseVideo trackNorm durations vs

/-- One output row of the matcher for a single track. -/
def buildMatchRow (trackId trackName : String) (videos : List Video)
    (durations : String → Option Int) : MatchRow :=
  let trackNorm := (normalize trackName).data
  let chosen := chooseVideo trackNorm durations videos
  { track_id := trackId
    youtube_video_id := chosen.map Video.video_id
    youtube_title := chosen.map Video.title
    channel_title := "A$AP Rocky (Releases)"
    published_at := chosen.map Video.published_at
    is_official := true
    match_confidence := if chosen.isSome then "high" else "none" }

/-- The whole matching loop over the (sorted) track list:
one row per track, no exceptions. -/
def matchAllTracks (tracks : List (String × String)) (videos : List Video)
    (durations : String → Option Int) : List MatchRow :=
  tracks.map (fun tr => buildMatchRow tr.1 tr.2 videos durations)

/-! ### Track extraction (scripts/01_get_tracks.py) -/

/-- `make_track_id`: `f"{album_slug}_{track_number:02d}"` (line 61-62). -/
def make_track_id (album_slug : String) (track_number : Nat) : String :=
  album_slug ++ "_" ++
    (if track_number < 10 then "0" ++ toString track_number else toString track_number)

/-- One step of the `cleaned.setdefault` loop of `find_tracks_in_state`
(lines 191-195): keep the first-seen title per track number in `1..50`. -/
def cleanedInsert (acc : List (Nat × String)) (p : Nat × String) : List (Nat × String) :=
  if 1 ≤ p.1 ∧ p.1 ≤ 50 ∧ acc.all (fun q => q.1 ≠ p.1) then acc ++ [p] else acc

/-- The first-seen deduplication over all candidates. -/
def cleanedCandidates (cands : List (Nat × String)) : List (Nat × String) :=
  cands.foldl cleanedInsert []

/-- `find_tracks_in_state` after the tree walk collected `cands`:
dedup, then return sorted by track number (or `none` when empty). -/
def find_tracks_in_state (cands : List (Nat × String)) : Option (List (Nat × String)) :=
  let cleaned := cleanedCandidates cands
  if cleaned.isEmpty then none
  else some (cleaned.insertionSort (fun p q => p.1 ≤ q.1))

/-- A row of `tracks.csv`. -/
structure TrackRow where
  track_id : String
  track_number : Nat
  track_name : String
  track_name_raw : String
deriving DecidableEq, Repr

/-- The validation before writing `tracks.csv` (lines 309-313):
an error is raised instead of writing when a duplicate id or an empty
cleaned name occurs. -/
def validateTracks (rows : List TrackRow) : Except String (List TrackRow) :=
  if ¬ (rows.map TrackRow.track_id).Nodup then
    Except.error "Duplicate track_id detected (unexpected)."
  else if rows.any (fun r => r.track_name = "") then
    Except.error "Some tracks became empty after cleaning"
  else Except.ok rows

/-! ### YouTube stats snapshots (scripts/03_pull_youtube_stats.py) -/

/-- Lookup in the `statistics` dict of an API item (values modelled as the
integers they parse to). -/
def dictGetInt (d : List (String × Int)) (k : String) : Option Int :=
  (d.find? (fun p => p.1 == k)).map Prod.snd

/-- Python `k in s` for the statistics dict. -/
def hasKey (d : List (String × Int)) (k : String) : Bool :=
  (d.find? (fun p => p.1 == k)).isSome

/-- The per-video record built by `yt_get_video_stats` (lines 68-72). -/
structure StatsRecord where
  view_count : Int
  like_count : Option Int
  comment_count : Option Int
deriving DecidableEq, Repr

/-- `stats[vid] = {...}`: `int(s.get("viewCount", 0))` for views, and
`int(s.get(k, 0)) if k in s else None` for likes/comments. -/
def yt_stats_record (s : List (String × Int)) : StatsRecord :=
  { view_count := (dictGetInt s "viewCount").getD 0
    like_count := if hasKey s "likeCount" then some ((dictGetInt s "likeCount").getD 0) else none
    comment_count := if hasKey s "commentCount" then some ((dictGetInt s "commentCount").getD 0) else none }

/-! ### Concrete inputs used by individual claims -/

/-- The ASCII apostrophe as a one-character string. -/
def aposS : String := String.mk [apos]

/-- The input text of claim C3. -/
def chorusInput : String := "[Chorus: A, B]\nI love you\n[Verse]\nYou love me"

/-- A text whose first line is a footer marker not preceded by a newline:
the footer regex needs a preceding `\n`, so the first pass keeps the line
while the second pass (whose input gained a leading newline) removes it. -/
def footerFirstInput : String := "You might also like\nfoo"

/-- The track title of claim C6, `Don't Be Dumb`. -/
def dbdTitle : String := "Don" ++ aposS ++ "t Be Dumb"

/-- The track title of claim C6 written with a curly apostrophe. -/
def dbdTitleCurly : String := "Don" ++ String.mk [curlyRight] ++ "t Be Dumb"

/-- The concrete input of claim C6: an upper-case title-echo line followed by
a lyric line. -/
def dbdInput : String := "DON" ++ aposS ++ "T BE DUMB LYRICS\nI stay dumb"

/-- The title-echo line of claim C6 written with a curly apostrophe. -/
def dbdCurlyLine : List Char :=
  ("DON" ++ String.mk [curlyRight] ++ "T BE DUMB LYRICS").data

/-- `n` repetitions of the two characters `a` and space. -/
def repAB : Nat → List Char
  | 0 => []
  | n + 1 => 'a' :: ' ' :: repAB n

/-- A text of ten million identical words (used against claim C2). -/
def bigText : String := String.mk (repAB 10000000)

/-- `k` repetitions of the letter `b`. -/
def bRun : Nat → List Char
  | 0 => []
  | k + 1 => 'b' :: bRun k

/-- The text fragment `" b^n b^(n-1) ... b"`: `n` pairwise distinct words of
distinct lengths, each preceded by a space. -/
def bText : Nat → List Char
  | 0 => []
  | k + 1 => ' ' :: (bRun (k + 1) ++ bText k)

/-- The word-character runs of `bText`, longest first. -/
def bTokens : Nat → List (List Char)
  | 0 => []
  | k + 1 => bRun (k + 1) :: bTokens k

/-- The tokens of `bText` as lower-cased strings. -/
def bStrs (n : Nat) : List String :=
  (bTokens n).map (fun w => String.mk (lowerL w))

/-- A ten-million-token text whose tokens are pairwise distinct except for a
single repeated `a` (used against claim C2: its repetition ratio rounds
to `0` although a token repeats). -/
def repeatText : String := String.mk ('a' :: ' ' :: 'a' :: bText 9999998)

/-- The input `rock 'n' roll` (used against claim C5). -/
def rockInput : String := "rock " ++ aposS ++ "n" ++ aposS ++ " roll"

/-- The token `'n'` produced out of `rockInput`. -/
def aposToken : String := String.mk [apos, 'n', apos]

/-- A line is `safe` when it exhibits none of the boilerplate patterns that
`clean_lyrics_text` strips: it is non-empty, its only whitespace characters
are single inner spaces, it is stripped, it contains no bracket or opening
parenthesis, it does not start with a footer marker, and it triggers none of
the three line filters for the normalized title `tn`. -/
def safeLine (tn ln : List Char) : Bool :=
  (!ln.isEmpty) &&
  ln.all (fun c => !isPyWs c || (c == ' ')) &&
  (!(ln.head? == some ' ')) &&
  (!(ln.getLast? == some ' ')) &&
  (!containsSub [' ', ' '] ln) &&
  (!ln.contains '[') &&
  (!ln.contains '(') &&
  (!youMightLit.isPrefixOf (lowerL ln)) &&
  (!embedLit.isPrefixOf (lowerL ln)) &&
  (!looksLikeDescriptionLine tn ln) &&
  (!dropLine tn ln) &&
  (!looksLikeDescriptionAnywhere tn ln)

end MusicPipeline

/-! ## Theorems -/

namespace MusicPipeline

/-! ### Rounding lemmas -/

theorem roundHalfEvenQ_intCast (n : ℤ) : roundHalfEvenQ (n : ℚ) = n := by
  simp [roundHalfEvenQ]

theorem roundHalfEvenQ_nonneg {q : ℚ} (h : 0 ≤ q) : 0 ≤ roundHalfEvenQ q := by
  have hf : (0 : ℤ) ≤ ⌊q⌋ := Int.floor_nonneg.mpr h
  unfold roundHalfEvenQ
  dsimp only
  split
  · exact hf
  · split
    · omega
    · split <;> omega

theorem roundHalfEvenQ_le {q : ℚ} {N : ℤ} (h : q ≤ N) : roundHalfEvenQ q ≤ N := by
  have hf : ⌊q⌋ ≤ N := by
    have := Int.floor_le_floor h
    simpa using this
  unfold roundHalfEvenQ
  dsimp only
  by_cases hEq : ⌊q⌋ = N
  · have hr : q - ⌊q⌋ ≤ 0 := by
      rw [hEq]
      linarith
    have h05 : q - (⌊q⌋ : ℚ) < 1/2 := by linarith
    simp only [if_pos h05]
    exact hf
  · have hlt : ⌊q⌋ < N := lt_of_le_of_ne hf hEq
    split
    · exact hf
    · split
      · omega
      · split <;> omega

theorem round6_nonneg {q : ℚ} (h : 0 ≤ q) : 0 ≤ round6 q := by
  unfold round6
  have h1 : (0 : ℚ) ≤ q * 1000000 := by positivity
  have h2 := roundHalfEvenQ_nonneg h1
  have : (0 : ℚ) ≤ (roundHalfEvenQ (q * 1000000) : ℚ) := by exact_mod_cast h2
  positivity

theorem round6_le_one {q : ℚ} (h : q ≤ 1) : round6 q ≤ 1 := by
  unfold round6
  have h1 : q * 1000000 ≤ ((1000000 : ℤ) : ℚ) := by push_cast; linarith
  have h2 := roundHalfEvenQ_le h1
  have h3 : (roundHalfEvenQ (q * 1000000) : ℚ) ≤ 1000000 := by exact_mod_cast h2
  linarith

theorem round6_zero : round6 (0 : ℚ) = 0 := by
  have h : (0 : ℚ) * 1000000 = ((0 : ℤ) : ℚ) := by norm_num
  rw [round6, h, roundHalfEvenQ_intCast]
  norm_num

theorem round6_half : round6 (1/2 : ℚ) = 1/2 := by
  have h : ((1 : ℚ)/2) * 1000000 = ((500000 : ℤ) : ℚ) := by norm_num
  rw [round6, h, roundHalfEvenQ_intCast]
  norm_num

/-! ### Claim C1 -/

/-- C1: the lyric normalizer and the three metric functions are total Lean
functions (no exception can be modelled), and on the empty input the
normalizer returns the empty string while all three metrics are `0`. -/
theorem c1_empty_input_yields_empty_and_zero :
    (∀ t : String, clean_lyrics_text "" t = "") ∧
      _tokenize_words "" = [] ∧ count_words "" = 0 ∧
      count_unique_words "" = 0 ∧ repetition_ratio "" = 0 := by
  refine ⟨fun t => rfl, rfl, rfl, rfl, rfl⟩

/-! ### Claim C9 -/

/-- C9: on `"I love you I love you"` the word count is 6, the unique word
count is 3, and the repetition ratio is `0.5`. -/
theorem c9_metrics_on_i_love_you :
    count_words "I love you I love you" = 6 ∧
      count_unique_words "I love you I love you" = 3 ∧
      repetition_ratio "I love you I love you" = 1/2 := by
  refine ⟨by decide, by decide, ?_⟩
  have ht : _tokenize_words "I love you I love you"
      = ["i", "love", "you", "i", "love", "you"] := by decide
  rw [repetition_ratio, ht]
  have hd : distinctAux [] ["i", "love", "you", "i", "love", "you"] = 3 := by decide
  simp only [List.length_cons, List.length_nil, hd]
  norm_num
  exact round6_half

/-! ### Claim C2 -/

theorem distinctAux_le_length (l : List String) : ∀ seen, distinctAux seen l ≤ l.length := by
  induction l with
  | nil => intro seen; simp [distinctAux]
  | cons x t ih =>
    intro seen
    simp only [distinctAux, List.length_cons]
    split
    · exact Nat.le_succ_of_le (ih seen)
    · have := ih (x :: seen)
      omega

theorem distinctAux_pos (x : String) (t : List String) :
    1 ≤ distinctAux [] (x :: t) := by
  simp [distinctAux, List.contains]

theorem distinctAux_of_nodup (l : List String) :
    ∀ seen, (∀ x ∈ l, x ∉ seen) → l.Nodup → distinctAux seen l = l.length := by
  induction l with
  | nil => intro seen _ _; rfl
  | cons x t ih =>
    intro seen hseen hnd
    have hx : seen.contains x = false := by
      rcases Bool.eq_false_or_eq_true (seen.contains x) with h | h
      · exact absurd (List.elem_iff.mp h) (hseen x (by simp))
      · exact h
    simp only [distinctAux, hx, Bool.false_eq_true, if_false, List.length_cons]
    have ht : ∀ y ∈ t, y ∉ x :: seen := by
      intro y hy
      simp only [List.mem_cons, not_or]
      exact ⟨fun hyx => (List.nodup_cons.mp hnd).1 (hyx ▸ hy),
        hseen y (List.mem_cons_of_mem _ hy)⟩
    rw [ih (x :: seen) ht (List.nodup_cons.mp hnd).2]
    omega

theorem distinctAux_replicate_seen (s : String) :
    ∀ m seen, seen.contains s = true → distinctAux seen (List.replicate m s) = 0 := by
  intro m
  induction m with
  | zero => intro seen _; rfl
  | succ k ih =>
    intro seen h
    simp only [List.replicate_succ, distinctAux, h, if_true]
    exact ih seen h

theorem distinctAux_replicate_one (s : String) (n : Nat) :
    distinctAux [] (List.replicate (n + 1) s) = 1 := by
  simp only [List.replicate_succ, distinctAux, List.contains, List.elem_nil,
    Bool.false_eq_true, if_false]
  rw [distinctAux_replicate_seen s n [s] (by simp [List.contains])]

theorem findWords_repAB (n : Nat) :
    findWordsAux [] (repAB n) = List.replicate n ['a'] := by
  induction n with
  | zero => rfl
  | succ k ih =>
    have h1 : isWordC 'a' = true := by decide
    have h2 : isWordC ' ' = false := by decide
    simp only [repAB, findWordsAux, h1, h2, Bool.false_eq_true, if_true, if_false,
      List.isEmpty_cons, List.replicate_succ]
    simpa using ih

theorem tokenize_repAB (n : Nat) :
    _tokenize_words (String.mk (repAB (n + 1))) = List.replicate (n + 1) "a" := by
  have hne : String.mk (repAB (n + 1)) ≠ "" := by
    simp only [repAB]
    intro h
    have := congrArg String.data h
    simp at this
  rw [_tokenize_words, if_neg hne]
  show (findWords (repAB (n + 1))).map _ = _
  rw [findWords, findWords_repAB, List.map_replicate]
  norm_num
  decide

theorem repetition_ratio_repAB (n : Nat) :
    repetition_ratio (String.mk (repAB (n + 1)))
      = round6 (1 - 1 / ((n : ℚ) + 1)) := by
  rw [repetition_ratio, tokenize_repAB]
  have hlen : (List.replicate (n + 1) "a").length = n + 1 := by simp
  rw [hlen]
  simp only [Nat.succ_ne_zero, if_false, distinctAux_replicate_one]
  push_cast
  norm_num

theorem repetition_ratio_bigText : repetition_ratio bigText = 1 := by
  have h : bigText = String.mk (repAB (9999999 + 1)) := by norm_num [bigText]
  rw [h, repetition_ratio_repAB]
  have hq : (1 : ℚ) - 1 / (((9999999 : ℕ) : ℚ) + 1) = 9999999 / 10000000 := by norm_num
  rw [hq]
  have harg : ((9999999 : ℚ) / 10000000) * 1000000 = 9999999 / 10 := by norm_num
  rw [round6, harg]
  have hfl : ⌊(9999999 / 10 : ℚ)⌋ = 999999 := by
    rw [Int.floor_eq_iff]
    constructor <;> norm_num
  rw [roundHalfEvenQ]
  simp only [hfl]
  norm_num

theorem bRun_ne_nil (k : Nat) : bRun (k + 1) ≠ [] := by
  rw [bRun]
  simp

theorem bRun_all_word : ∀ k, ∀ c ∈ bRun k, isWordC c = true := by
  intro k
  induction k with
  | zero => intro c hc; simp [bRun] at hc
  | succ m ih =>
    intro c hc
    rw [bRun] at hc
    rcases List.mem_cons.mp hc with h | h
    · subst h; decide
    · exact ih c h

theorem bRun_length : ∀ k, (bRun k).length = k := by
  intro k
  induction k with
  | zero => rfl
  | succ m ih => rw [bRun, List.length_cons, ih]

theorem lowerL_bRun : ∀ k, lowerL (bRun k) = bRun k := by
  intro k
  induction k with
  | zero => rfl
  | succ m ih =>
    rw [bRun]
    show pyLower 'b' :: lowerL (bRun m) = 'b' :: bRun m
    rw [ih, show pyLower 'b' = 'b' from by decide]

theorem scan_run : ∀ w : List Char, w ≠ [] → (∀ c ∈ w, isWordC c = true) →
    ∀ (cur rest : List Char),
      findWordsAux cur (w ++ ' ' :: rest) = (cur.reverse ++ w) :: findWordsAux [] rest := by
  intro w
  induction w with
  | nil => intro h _ _ _; exact absurd rfl h
  | cons c w2 ih =>
    intro _ hword cur rest
    have hc : isWordC c = true := hword c (by simp)
    cases w2 with
    | nil =>
      rw [List.cons_append, List.nil_append, findWordsAux, if_pos hc]
      rw [findWordsAux, if_neg (by decide), if_neg (by simp)]
      simp
    | cons d w3 =>
      rw [List.cons_append, findWordsAux, if_pos hc]
      rw [ih (by simp) (fun x hx => hword x (List.mem_cons_of_mem _ hx)) (c :: cur) rest]
      simp

theorem scan_run_end : ∀ w : List Char, w ≠ [] → (∀ c ∈ w, isWordC c = true) →
    ∀ cur : List Char, findWordsAux cur w = [cur.reverse ++ w] := by
  intro w
  induction w with
  | nil => intro h _ _; exact absurd rfl h
  | cons c w2 ih =>
    intro _ hword cur
    have hc : isWordC c = true := hword c (by simp)
    cases w2 with
    | nil =>
      rw [findWordsAux, if_pos hc, findWordsAux, if_neg (by simp)]
      simp
    | cons d w3 =>
      rw [findWordsAux, if_pos hc]
      rw [ih (by simp) (fun x hx => hword x (List.mem_cons_of_mem _ hx)) (c :: cur)]
      simp

theorem findWords_bText : ∀ m : Nat,
    findWordsAux [] (bRun (m + 1) ++ bText m) = bRun (m + 1) :: bTokens m ∧
      findWordsAux [] (bText m) = bTokens m := by
  intro m
  induction m with
  | zero =>
    constructor
    · rw [show bText 0 = [] from rfl, List.append_nil]
      rw [scan_run_end (bRun 1) (bRun_ne_nil 0) (bRun_all_word 1) []]
      rfl
    · rfl
  | succ k ih =>
    have hsnd : findWordsAux [] (bText (k + 1)) = bTokens (k + 1) := by
      rw [show bText (k + 1) = ' ' :: (bRun (k + 1) ++ bText k) from rfl]
      rw [findWordsAux, if_neg (by decide), if_pos (by simp)]
      rw [ih.1]
      rfl
    refine ⟨?_, hsnd⟩
    rw [show bText (k + 1) = ' ' :: (bRun (k + 1) ++ bText k) from rfl]
    rw [scan_run (bRun (k + 2)) (bRun_ne_nil (k + 1)) (bRun_all_word (k + 2)) []
      (bRun (k + 1) ++ bText k)]
    rw [ih.1]
    rfl

theorem findWords_repeat_shape (n : Nat) :
    findWordsAux [] ('a' :: ' ' :: 'a' :: bText (n + 1))
      = ['a'] :: ['a'] :: bRun (n + 1) :: bTokens n := by
  rw [findWordsAux, if_pos (by decide)]
  rw [findWordsAux, if_neg (by decide), if_neg (by simp)]
  rw [findWordsAux, if_pos (by decide)]
  rw [show bText (n + 1) = ' ' :: (bRun (n + 1) ++ bText n) from rfl]
  rw [findWordsAux, if_neg (by decide), if_neg (by simp)]
  rw [(findWords_bText n).1]
  rfl

theorem bStrs_succ (n : Nat) :
    bStrs (n + 1) = String.mk (lowerL (bRun (n + 1))) :: bStrs n := by
  rw [bStrs, show bTokens (n + 1) = bRun (n + 1) :: bTokens n from rfl, List.map_cons]
  rfl

theorem tokenize_repeatText :
    _tokenize_words repeatText = "a" :: "a" :: bStrs 9999998 := by
  have hne : repeatText ≠ "" := by
    intro h
    have hd := congrArg String.data h
    simp [repeatText] at hd
  rw [_tokenize_words, if_neg hne]
  show (findWords ('a' :: ' ' :: 'a' :: bText 9999998)).map _ = _
  have h8 : (9999998 : Nat) = 9999997 + 1 := by norm_num
  rw [findWords, h8, findWords_repeat_shape 9999997]
  rw [List.map_cons, List.map_cons, List.map_cons]
  rw [show String.mk (lowerL ['a']) = "a" from by decide]
  rw [bStrs_succ]
  rfl

theorem bTokens_mem : ∀ (m : Nat) (w : List Char), w ∈ bTokens m →
    ∃ k, k + 1 ≤ m ∧ w = bRun (k + 1) := by
  intro m
  induction m with
  | zero => intro w hw; simp [bTokens] at hw
  | succ j ih =>
    intro w hw
    rw [show bTokens (j + 1) = bRun (j + 1) :: bTokens j from rfl] at hw
    rcases List.mem_cons.mp hw with h | h
    · exact ⟨j, le_refl _, h⟩
    · obtain ⟨k, hk, hEq⟩ := ih w h
      exact ⟨k, Nat.le_succ_of_le hk, hEq⟩

theorem bStrs_ne_a : ∀ (m : Nat) (s : String), s ∈ bStrs m → s ≠ "a" := by
  intro m s hs hEq
  obtain ⟨w, hw, hws⟩ := List.mem_map.mp hs
  obtain ⟨k, _, rfl⟩ := bTokens_mem m w hw
  rw [lowerL_bRun] at hws
  rw [hEq] at hws
  have hd := congrArg String.data hws
  rw [show bRun (k + 1) = 'b' :: bRun k from rfl] at hd
  simp at hd

theorem bStrs_length (n : Nat) : (bStrs n).length = n := by
  induction n with
  | zero => rfl
  | succ m ih => rw [bStrs_succ, List.length_cons, ih]

theorem bStrs_nodup : ∀ n : Nat, (bStrs n).Nodup := by
  intro n
  induction n with
  | zero => exact List.nodup_nil
  | succ m ih =>
    rw [bStrs_succ]
    refine List.nodup_cons.mpr ⟨?_, ih⟩
    intro hmem
    obtain ⟨w, hw, hws⟩ := List.mem_map.mp hmem
    have hlen := congrArg (fun s : String => s.data.length) hws
    simp only [lowerL, List.length_map] at hlen
    obtain ⟨k, hk, rfl⟩ := bTokens_mem m w hw
    rw [bRun_length, bRun_length] at hlen
    omega

theorem distinct_repeat (n : Nat) :
    distinctAux [] ("a" :: "a" :: bStrs n) = 1 + n := by
  rw [distinctAux]
  rw [show (([] : List String).contains "a") = false from rfl]
  simp only [Bool.false_eq_true, if_false]
  rw [distinctAux, show (["a"].contains "a") = true from by decide, if_pos rfl]
  rw [distinctAux_of_nodup (bStrs n) ["a"]
    (fun x hx => by simpa using bStrs_ne_a n x hx) (bStrs_nodup n)]
  rw [bStrs_length]

theorem repetition_ratio_repeatText : repetition_ratio repeatText = 0 := by
  rw [repetition_ratio, tokenize_repeatText]
  have hlen : ("a" :: "a" :: bStrs 9999998).length = 10000000 := by
    rw [List.length_cons, List.length_cons, bStrs_length]
  rw [hlen]
  simp only [show (10000000 : Nat) ≠ 0 from by norm_num, if_false]
  rw [distinct_repeat 9999998]
  have hq : (1 : ℚ) - ((((1 + 9999998 : Nat)) : ℚ) / ((10000000 : Nat) : ℚ))
      = 1 / 10000000 := by norm_num
  rw [hq]
  have harg : ((1 : ℚ) / 10000000) * 1000000 = 1 / 10 := by norm_num
  rw [round6, harg]
  have hfl : ⌊(1 / 10 : ℚ)⌋ = 0 := by
    rw [Int.floor_eq_iff]
    constructor <;> norm_num
  rw [roundHalfEvenQ]
  simp only [hfl]
  norm_num

/-- C2 counterexample: rounding breaks both directions of the claim.  On a
ten-million-word text with a single distinct word the rounded repetition ratio
equals `1`, leaving `[0, 1)`; and on a ten-million-token text whose tokens are
pairwise distinct except for one repeated token the rounded ratio is `0`, so a
zero ratio does not imply that the text has no repeated token. -/
theorem c2_counterexample_rounding_breaks_claim :
    (repetition_ratio bigText = 1 ∧ ¬ repetition_ratio bigText < 1) ∧
      (repetition_ratio repeatText = 0 ∧ _tokenize_words repeatText ≠ [] ∧
        ¬ (_tokenize_words repeatText).Nodup) := by
  refine ⟨⟨repetition_ratio_bigText, ?_⟩, repetition_ratio_repeatText, ?_, ?_⟩
  · rw [repetition_ratio_bigText]
    exact lt_irrefl 1
  · rw [tokenize_repeatText]
    simp
  · rw [tokenize_repeatText]
    intro hnd
    exact (List.nodup_cons.mp hnd).1 (List.mem_cons_self _ _)

/-- C2 (amended): the repetition ratio always lies in the closed interval
`[0, 1]`, and it equals `0` whenever the text has no tokens or all tokens are
distinct (after rounding it can also reach `1` on a ten-million-token text
with one distinct token, and be `0` on a ten-million-token text with one
repeated token, as the counterexample theorem shows). -/
theorem c2_repetition_ratio_bounds (text : String) :
    0 ≤ repetition_ratio text ∧ repetition_ratio text ≤ 1 ∧
      ((_tokenize_words text = [] ∨ (_tokenize_words text).Nodup) →
        repetition_ratio text = 0) := by
  rw [repetition_ratio]
  rcases eq_or_ne (_tokenize_words text).length 0 with h0 | h0
  · simp [h0]
  · simp only [h0, if_false]
    obtain ⟨x, t, hxt⟩ : ∃ x t, _tokenize_words text = x :: t := by
      cases hw : _tokenize_words text with
      | nil => exact absurd (by rw [hw]; rfl) h0
      | cons x t => exact ⟨x, t, rfl⟩
    have hpos : 0 < (_tokenize_words text).length := Nat.pos_of_ne_zero h0
    have hu1 : 1 ≤ distinctAux [] (_tokenize_words text) := by
      rw [hxt]; exact distinctAux_pos x t
    have hut : distinctAux [] (_tokenize_words text) ≤ (_tokenize_words text).length :=
      distinctAux_le_length _ []
    have hposQ : (0 : ℚ) < ((_tokenize_words text).length : ℚ) := by exact_mod_cast hpos
    have hfrac_le : ((distinctAux [] (_tokenize_words text) : ℚ))
        / ((_tokenize_words text).length : ℚ) ≤ 1 := by
      rw [div_le_one hposQ]
      exact_mod_cast hut
    have hfrac_nonneg : (0 : ℚ) ≤ ((distinctAux [] (_tokenize_words text) : ℚ))
        / ((_tokenize_words text).length : ℚ) := by positivity
    refine ⟨round6_nonneg (by linarith), round6_le_one (by linarith), ?_⟩
    rintro (hnil | hnd)
    · exact absurd (by rw [hnil]; rfl) h0
    · have := distinctAux_of_nodup (_tokenize_words text) [] (by simp) hnd
      rw [this, div_self (ne_of_gt hposQ)]
      simpa using round6_zero

/-- C2 witness: a three-word all-distinct text has repetition ratio `0`. -/
theorem c2_witness_distinct_text_ratio_zero : repetition_ratio "a b c" = 0 :=
  (c2_repetition_ratio_bounds "a b c").2.2 (Or.inr (by decide))

/-! ### Claim C5 -/

theorem char_le_iff_toNat (a b : Char) : a ≤ b ↔ a.toNat ≤ b.toNat := by
  rw [Char.le_def, UInt32.le_def, BitVec.le_def]
  exact Iff.rfl

theorem charOfNat_toNat {n : Nat} (h : n < 55296) : (Char.ofNat n).toNat = n := by
  have hv : n.isValidChar := Or.inl h
  rw [Char.ofNat, dif_pos hv]
  simp [Char.ofNatAux, Char.toNat, UInt32.toNat, BitVec.toNat_ofNatLt]

theorem pyLower_toNat_of_upper {c : Char} (h : 'A' ≤ c ∧ c ≤ 'Z') :
    (pyLower c).toNat = c.toNat + 32 := by
  have h2 : c.toNat ≤ 90 := by
    have := (char_le_iff_toNat c 'Z').mp h.2
    simpa using this
  rw [pyLower, if_pos h]
  exact charOfNat_toNat (by omega)

theorem pyLower_idem (c : Char) : pyLower (pyLower c) = pyLower c := by
  by_cases h : 'A' ≤ c ∧ c ≤ 'Z'
  · have h1 : 65 ≤ c.toNat := by
      have := (char_le_iff_toNat 'A' c).mp h.1
      simpa using this
    have htn := pyLower_toNat_of_upper h
    have hnot : ¬ ('A' ≤ pyLower c ∧ pyLower c ≤ 'Z') := by
      rintro ⟨_, hb⟩
      have := (char_le_iff_toNat (pyLower c) 'Z').mp hb
      rw [htn] at this
      simp at this
      omega
    conv_lhs => rw [pyLower, if_neg hnot]
  · have hfix : pyLower c = c := by rw [pyLower, if_neg h]
    rw [hfix, hfix]

theorem isWordC_pyLower {c : Char} (h : isWordC c = true) :
    isWordC (pyLower c) = true := by
  by_cases hu : 'A' ≤ c ∧ c ≤ 'Z'
  · have h1 : 65 ≤ c.toNat := by
      have := (char_le_iff_toNat 'A' c).mp hu.1
      simpa using this
    have h2 : c.toNat ≤ 90 := by
      have := (char_le_iff_toNat c 'Z').mp hu.2
      simpa using this
    have htn := pyLower_toNat_of_upper hu
    have ha : 'a' ≤ pyLower c := by
      rw [char_le_iff_toNat, htn]
      show 97 ≤ c.toNat + 32
      omega
    have hz : pyLower c ≤ 'z' := by
      rw [char_le_iff_toNat, htn]
      show c.toNat + 32 ≤ 122
      omega
    simp [isWordC, ha, hz]
  · rw [pyLower, if_neg hu]
    exact h

theorem findWordsAux_tokens :
    ∀ (l cur : List Char), (∀ c ∈ cur, isWordC c = true) →
      ∀ w ∈ findWordsAux cur l, w ≠ [] ∧ ∀ c ∈ w, isWordC c = true := by
  intro l
  induction l with
  | nil =>
    intro cur hcur w hw
    rw [findWordsAux] at hw
    rcases eq_or_ne cur [] with hc | hc
    · simp [hc] at hw
    · simp only [List.isEmpty_eq_true, hc, if_false, List.mem_singleton] at hw
      subst hw
      refine ⟨by simpa using hc, fun c hcw => hcur c (by simpa using hcw)⟩
  | cons x t ih =>
    intro cur hcur w hw
    rw [findWordsAux] at hw
    by_cases hx : isWordC x = true
    · rw [if_pos hx] at hw
      exact ih (x :: cur) (by
        intro c hc
        rcases List.mem_cons.mp hc with h | h
        · exact h ▸ hx
        · exact hcur c h) w hw
    · rw [if_neg hx] at hw
      rcases eq_or_ne cur [] with hc | hc
      · simp only [hc, List.isEmpty_nil, if_true] at hw
        exact ih [] (by simp) w hw
      · simp only [List.isEmpty_eq_true, hc, if_false, List.mem_cons] at hw
        rcases hw with hw | hw
        · subst hw
          refine ⟨by simpa using hc, fun c hcw => hcur c (by simpa using hcw)⟩
        · exact ih [] (by simp) w hw

/-- C5 counterexample: on the input `rock \'n\' roll` the tokenizer produces the
token `\'n\'`, which both starts and ends with an apostrophe. -/
theorem c5_counterexample_apostrophe_token :
    aposToken ∈ _tokenize_words rockInput ∧
      aposToken.data.head? = some apos ∧ aposToken.data.getLast? = some apos := by
  refine ⟨by decide, by decide, by decide⟩

/-- C5 (amended): every token produced by the metric tokenizer is a non-empty
string over the character class `[A-Za-z0-9\']` that is invariant under
lower-casing (hence consists of lower-case alphanumerics and apostrophes);
apostrophes may however appear at either edge or alone. -/
theorem c5_tokens_lowercase_wordchars (text : String) :
    ∀ w ∈ _tokenize_words text, w ≠ "" ∧
      ∀ c ∈ w.data, isWordC c = true ∧ pyLower c = c := by
  intro w hw
  rw [_tokenize_words] at hw
  split at hw
  · simp at hw
  · obtain ⟨w0, hw0, rfl⟩ := List.mem_map.mp hw
    obtain ⟨hne, hchars⟩ := findWordsAux_tokens text.data [] (by simp) w0 hw0
    constructor
    · intro hcontra
      have : lowerL w0 = [] := congrArg String.data hcontra
      exact hne (by simpa [lowerL] using this)
    · intro c hc
      show isWordC c = true ∧ pyLower c = c
      have hdata : (String.mk (lowerL w0)).data = lowerL w0 := rfl
      rw [hdata] at hc
      obtain ⟨c0, hc0, rfl⟩ := List.mem_map.mp hc
      exact ⟨isWordC_pyLower (hchars c0 hc0), pyLower_idem c0⟩

/-- C5 witness: instantiating the amended theorem on a concrete text. -/
theorem c5_witness_rock_token :
    ("rock" : String) ≠ "" ∧ ∀ c ∈ ("rock" : String).data, isWordC c = true ∧ pyLower c = c :=
  c5_tokens_lowercase_wordchars rockInput "rock" (by decide)

/-! ### Claim C3 -/

theorem looksLikeDescLine_of_noBad (tn ln : List Char)
    (hbad : badPhrases.any (fun p => containsSub p (lowerL (stripWs ln))) = false)
    (hell : ([hellip].isSuffixOf (stripWs ln) || ['.', '.', '.'].isSuffixOf (stripWs ln)) = false) :
    looksLikeDescriptionLine tn ln = false := by
  rw [looksLikeDescriptionLine]
  simp only [hbad, hell, Bool.and_false, Bool.false_and, if_false]
  split <;> rfl

theorem isPrefixOf_self_append (l r : List Char) : l.isPrefixOf (l ++ r) = true := by
  induction l with
  | nil => simp [List.isPrefixOf]
  | cons c t ih => simp [List.isPrefixOf, ih]

theorem isSuffixOf_append_self (a b : List Char) : b.isSuffixOf (a ++ b) = true := by
  rw [List.isSuffixOf, List.reverse_append]
  exact isPrefixOf_self_append b.reverse a.reverse

theorem beq_append_false_of_not_suffix (a b t : List Char)
    (h : b.isSuffixOf t = false) : (t == a ++ b) = false := by
  rcases Bool.eq_false_or_eq_true (t == a ++ b) with hb | hb
  · have ht : t = a ++ b := eq_of_beq hb
    rw [ht, isSuffixOf_append_self] at h
    exact Bool.noConfusion h
  · exact hb

theorem dropLine_false (tn ln : List Char)
    (h1 : ln.isEmpty = false)
    (h2 : languageMenu.contains ln = false)
    (h3 : ((ln.head? == some '[') && (ln.getLast? == some ']')) = false)
    (h4 : lyricsSuffix.isSuffixOf (normForTitleMatch ln) = false)
    (h5 : isContributorsLine ln = false)
    (h6 : isTranslationsLine ln = false) :
    dropLine tn ln = false := by
  have he := beq_append_false_of_not_suffix tn lyricsSuffix (normForTitleMatch ln) h4
  rw [dropLine]
  simp only [h1, h2, h3, h4, h5, h6, he, Bool.false_and, Bool.and_false, Bool.or_self,
    Bool.false_eq_true, if_false]

theorem looksDescAnywhere_false (tn ln : List Char)
    (h1 : strongPhrases.any (fun p => containsSub p (lowerL (stripWs ln))) = false)
    (h2 : weakPhrases.any (fun p => containsSub p (lowerL (stripWs ln))) = false)
    (h3 : containsSub singleLit (lowerL (stripWs ln)) = false)
    (h4 : searchWordAlt monthAlts (lowerL (stripWs ln)) = false)
    (h5 : yearSearch (stripWs ln) = false) :
    looksLikeDescriptionAnywhere tn ln = false := by
  rw [looksLikeDescriptionAnywhere]
  simp only [h1, h2, h3, h4, h5, Bool.and_false, Bool.false_and, Bool.and_self,
    Bool.false_eq_true, if_false]
  split <;> rfl

/-- C3 counterexample: on the bracketed-chorus input and a title not occurring
in the text, the cleaned result is not the bare two lyric lines (the function
prepends a newline). -/
theorem c3_counterexample_leading_newline :
    clean_lyrics_text chorusInput "xyz" ≠ "I love you\nYou love me" := by
  decide

/-- C3 (amended): for every track title, cleaning the bracketed-chorus input
strips both section headers and collapses the text, but the result carries a
single leading newline: it is `"\nI love you\nYou love me"`. -/
theorem c3_chorus_input_cleaned (title : String) :
    clean_lyrics_text chorusInput title = "\nI love you\nYou love me" := by
  have hne : ¬ (chorusInput = "") := by decide
  rw [clean_lyrics_text, if_neg hne]
  show String.mk ('\n' :: stripWs (normalize_whitespace (joinNL
      (keptLines (normForTitleMatch title.data) (preLineText chorusInput.data)))))
    = "\nI love you\nYou love me"
  have h1 : preLineText chorusInput.data = ("\nI love you\n\nYou love me").data := by decide
  rw [h1]
  have hkept : keptLines (normForTitleMatch title.data) ("\nI love you\n\nYou love me").data
      = ["I love you".data, "You love me".data] := by
    set tn := normForTitleMatch title.data with htn
    rw [keptLines]
    have hsplit : (splitNL ("\nI love you\n\nYou love me").data).map stripWs
        = [[], "I love you".data, [], "You love me".data] := by decide
    rw [hsplit]
    have hd1 : looksLikeDescriptionLine tn "I love you".data = false :=
      looksLikeDescLine_of_noBad tn _ (by decide) (by decide)
    have hd2 : looksLikeDescriptionLine tn "You love me".data = false :=
      looksLikeDescLine_of_noBad tn _ (by decide) (by decide)
    have hd0 : looksLikeDescriptionLine tn [] = false := by
      rw [looksLikeDescriptionLine]
      rfl
    have htop : topFilter tn 8 [[], "I love you".data, [], "You love me".data]
        = [[], "I love you".data, [], "You love me".data] := by
      simp +decide only [topFilter, hd0, hd1, hd2]
    rw [htop]
    have hjoin : (splitNL (joinNL [[], "I love you".data, [], "You love me".data])).map stripWs
        = [[], "I love you".data, [], "You love me".data] := by decide
    rw [hjoin]
    have hdl1 : dropLine tn "I love you".data = false :=
      dropLine_false tn _ (by decide) (by decide) (by decide) (by decide) (by decide) (by decide)
    have hdl2 : dropLine tn "You love me".data = false :=
      dropLine_false tn _ (by decide) (by decide) (by decide) (by decide) (by decide) (by decide)
    have hde : dropLine tn ([] : List Char) = true := by rw [dropLine]; rfl
    have ha1 : looksLikeDescriptionAnywhere tn "I love you".data = false :=
      looksDescAnywhere_false tn _ (by decide) (by decide) (by decide) (by decide) (by decide)
    have ha2 : looksLikeDescriptionAnywhere tn "You love me".data = false :=
      looksDescAnywhere_false tn _ (by decide) (by decide) (by decide) (by decide) (by decide)
    simp only [List.filter, hdl1, hdl2, hde, ha1, ha2, Bool.not_true, Bool.not_false]
  rw [hkept]
  decide

/-! ### Claim C6 -/

/-- C6: any line whose punctuation-normalized form equals the normalized
title `Don\'t Be Dumb` followed by `" lyrics"` is dropped by the line-level
cleanup — regardless of letter case and straight-vs-curly punctuation in the
line or the title (both title spellings normalize identically) — and on the
concrete input the upper-case echo line `DON\'T BE DUMB LYRICS` is removed. -/
theorem c6_title_echo_line_removed (ln : List Char)
    (hln : normForTitleMatch ln = normForTitleMatch dbdTitle.data ++ lyricsSuffix) :
    dropLine (normForTitleMatch dbdTitle.data) ln = true ∧
      dropLine (normForTitleMatch dbdTitleCurly.data) ln = true ∧
      clean_lyrics_text dbdInput dbdTitle = "\nI stay dumb" ∧
      clean_lyrics_text dbdInput dbdTitleCurly = "\nI stay dumb" := by
  have hsame : normForTitleMatch dbdTitleCurly.data = normForTitleMatch dbdTitle.data := by
    decide
  refine ⟨?_, ?_, by decide, by decide⟩
  · simp +decide [dropLine, hln]
  · rw [hsame]
    simp +decide [dropLine, hln]

/-- C6 witness: the curly-apostrophe upper-case echo line satisfies the
normalization hypothesis and is dropped. -/
theorem c6_witness_curly_echo_line :
    dropLine (normForTitleMatch dbdTitle.data) dbdCurlyLine = true ∧
      dropLine (normForTitleMatch dbdTitleCurly.data) dbdCurlyLine = true ∧
      clean_lyrics_text dbdInput dbdTitle = "\nI stay dumb" ∧
      clean_lyrics_text dbdInput dbdTitleCurly = "\nI stay dumb" :=
  c6_title_echo_line_removed dbdCurlyLine (by decide)

/-! ### Claim C7 -/

theorem chooseVideo_first (tn : List Char) (d : String → Option Int) (v : Video) :
    ∀ l1 l2, (∀ w ∈ l1, isMatch tn d w = false) → isMatch tn d v = true →
      chooseVideo tn d (l1 ++ v :: l2) = some v := by
  intro l1
  induction l1 with
  | nil =>
    intro l2 _ hv
    simp only [List.nil_append, chooseVideo, hv, if_true]
  | cons w t ih =>
    intro l2 hall hv
    have hw : isMatch tn d w = false := hall w (by simp)
    simp only [List.cons_append, chooseVideo, hw, Bool.false_eq_true, if_false]
    exact ih l2 (fun x hx => hall x (List.mem_cons_of_mem _ hx)) hv

theorem chooseVideo_none (tn : List Char) (d : String → Option Int) :
    ∀ videos, (∀ v ∈ videos, isMatch tn d v = false) →
      chooseVideo tn d videos = none := by
  intro videos
  induction videos with
  | nil => intro _; rfl
  | cons v t ih =>
    intro hall
    have hv : isMatch tn d v = false := hall v (by simp)
    simp only [chooseVideo, hv, Bool.false_eq_true, if_false]
    exact ih (fun x hx => hall x (List.mem_cons_of_mem _ hx))

/-- C7: for every track, the matcher's output row has confidence label
`"high"` or `"none"` and nothing else; when some playlist video matches
(normalized-title containment plus the 30-second duration threshold), the row
records the first such video in playlist order with confidence `"high"`; when
no video matches, the row has null id, title and publish timestamp with
confidence `"none"`; and the loop always produces one row per track (no
error aborts processing). -/
theorem c7_match_rows (trackId trackName : String) (videos : List Video)
    (durations : String → Option Int) (tracks : List (String × String)) :
    ((buildMatchRow trackId trackName videos durations).match_confidence = "high" ∨
      (buildMatchRow trackId trackName videos durations).match_confidence = "none") ∧
    (∀ l1 v l2, videos = l1 ++ v :: l2 →
      isMatch (normalize trackName).data durations v = true →
      (∀ w ∈ l1, isMatch (normalize trackName).data durations w = false) →
      buildMatchRow trackId trackName videos durations =
        { track_id := trackId, youtube_video_id := some v.video_id,
          youtube_title := some v.title, channel_title := "A$AP Rocky (Releases)",
          published_at := some v.published_at, is_official := true,
          match_confidence := "high" }) ∧
    ((∀ v ∈ videos, isMatch (normalize trackName).data durations v = false) →
      buildMatchRow trackId trackName videos durations =
        { track_id := trackId, youtube_video_id := none, youtube_title := none,
          channel_title := "A$AP Rocky (Releases)", published_at := none,
          is_official := true, match_confidence := "none" }) ∧
    (matchAllTracks tracks videos durations).length = tracks.length := by
  refine ⟨?_, ?_, ?_, by simp [matchAllTracks]⟩
  · rw [buildMatchRow]
    cases h : chooseVideo (normalize trackName).data durations videos <;>
      simp [h]
  · intro l1 v l2 hsplit hv hall
    rw [buildMatchRow]
    rw [hsplit, chooseVideo_first _ _ v l1 l2 hall hv]
    rfl
  · intro hall
    rw [buildMatchRow, chooseVideo_none _ _ videos hall]
    rfl

/-- C7 witness: a two-video playlist where only the second video matches. -/
theorem c7_witness_concrete_playlist :
    buildMatchRow "dont_be_dumb_01" "Hello"
        [⟨"idA", "Teaser", "2025-01-01"⟩, ⟨"idB", "Hello (Official Audio)", "2025-01-02"⟩]
        (fun vid => if vid = "idB" then some 215 else some 20) =
      { track_id := "dont_be_dumb_01", youtube_video_id := some "idB",
        youtube_title := some "Hello (Official Audio)",
        channel_title := "A$AP Rocky (Releases)",
        published_at := some "2025-01-02", is_official := true,
        match_confidence := "high" } :=
  (c7_match_rows "dont_be_dumb_01" "Hello"
      [⟨"idA", "Teaser", "2025-01-01"⟩, ⟨"idB", "Hello (Official Audio)", "2025-01-02"⟩]
      (fun vid => if vid = "idB" then some 215 else some 20) []).2.1
    [⟨"idA", "Teaser", "2025-01-01"⟩] ⟨"idB", "Hello (Official Audio)", "2025-01-02"⟩ []
    rfl (by decide) (by decide)

/-! ### Claim C8 -/

theorem make_track_id_data (slug : String) (n : Nat) :
    (make_track_id slug n).data
      = (slug.data ++ "_".data) ++ (if n < 10 then "0" ++ toString n else toString n).data := by
  rw [make_track_id, String.data_append, String.data_append]

theorem pad2_inj : ∀ n, n < 51 → ∀ m, m < 51 →
    ((if n < 10 then "0" ++ toString n else toString n)
      = (if m < 10 then "0" ++ toString m else toString m)) → n = m := by
  decide

theorem make_track_id_inj (slug : String) {n m : Nat} (hn : n ≤ 50) (hm : m ≤ 50)
    (h : make_track_id slug n = make_track_id slug m) : n = m := by
  have hd := congrArg String.data h
  rw [make_track_id_data, make_track_id_data] at hd
  have h2 := List.append_cancel_left hd
  have h3 : (if n < 10 then "0" ++ toString n else toString n)
      = (if m < 10 then "0" ++ toString m else toString m) := congrArg String.mk h2
  exact pad2_inj n (by omega) m (by omega) h3

theorem make_track_id_ne_empty (slug : String) (n : Nat) :
    make_track_id slug n ≠ "" := by
  intro h
  have hd := congrArg String.data h
  rw [make_track_id_data] at hd
  have h1 : ("_" : String).data = ['_'] := rfl
  rw [h1] at hd
  simp at hd

theorem cleanedInsert_invar (acc : List (Nat × String)) (p : Nat × String)
    (h1 : ∀ q ∈ acc, 1 ≤ q.1 ∧ q.1 ≤ 50) (h2 : (acc.map Prod.fst).Nodup) :
    (∀ q ∈ cleanedInsert acc p, 1 ≤ q.1 ∧ q.1 ≤ 50) ∧
      ((cleanedInsert acc p).map Prod.fst).Nodup := by
  rw [cleanedInsert]
  split
  · rename_i hcond
    constructor
    · intro q hq
      rcases List.mem_append.mp hq with h | h
      · exact h1 q h
      · rcases List.mem_singleton.mp h with rfl
        exact ⟨hcond.1, hcond.2.1⟩
    · rw [List.map_append]
      rw [List.nodup_append]
      refine ⟨h2, List.nodup_singleton _, ?_⟩
      intro a ha hb
      have hb2 : a = p.1 := by simpa using hb
      obtain ⟨q, hq, rfl⟩ := List.mem_map.mp ha
      have hne := List.all_eq_true.mp hcond.2.2 q hq
      have hne2 : q.1 ≠ p.1 := by simpa using hne
      exact hne2 hb2
  · exact ⟨h1, h2⟩

theorem cleanedCandidates_invar :
    ∀ (cands acc : List (Nat × String)),
      (∀ q ∈ acc, 1 ≤ q.1 ∧ q.1 ≤ 50) → (acc.map Prod.fst).Nodup →
      (∀ q ∈ cands.foldl cleanedInsert acc, 1 ≤ q.1 ∧ q.1 ≤ 50) ∧
        ((cands.foldl cleanedInsert acc).map Prod.fst).Nodup := by
  intro cands
  induction cands with
  | nil => intro acc h1 h2; exact ⟨h1, h2⟩
  | cons p t ih =>
    intro acc h1 h2
    rw [List.foldl_cons]
    obtain ⟨g1, g2⟩ := cleanedInsert_invar acc p h1 h2
    exact ih (cleanedInsert acc p) g1 g2

/-- C8: the track list produced by `find_tracks_in_state` carries pairwise
distinct track numbers in `1..50`, so `make_track_id` yields pairwise distinct
non-empty identifiers for them; and the pre-write validation raises an error
(instead of writing `tracks.csv`) exactly when a duplicate `track_id` or an
empty cleaned track name occurs. -/
theorem c8_track_ids_unique (cands : List (Nat × String)) (ts : List (Nat × String))
    (slug : String) (hts : find_tracks_in_state cands = some ts) :
    ((ts.map (fun p => make_track_id slug p.1)).Nodup ∧
      (∀ p ∈ ts, make_track_id slug p.1 ≠ "")) ∧
    (∀ rows : List TrackRow,
      (∃ msg, validateTracks rows = Except.error msg) ↔
        (¬ (rows.map TrackRow.track_id).Nodup ∨ ∃ r ∈ rows, r.track_name = "")) := by
  constructor
  · simp only [find_tracks_in_state] at hts
    by_cases hemp : (cleanedCandidates cands).isEmpty
    · rw [if_pos hemp] at hts
      exact absurd hts (by simp)
    · rw [if_neg hemp, Option.some_inj] at hts
      have hperm : (List.insertionSort (fun p q => p.1 ≤ q.1)
          (cleanedCandidates cands)).Perm (cleanedCandidates cands) :=
        List.perm_insertionSort _ _
      obtain ⟨hrange, hnodup⟩ := cleanedCandidates_invar cands [] (by simp) (by simp)
      have hrange2 : ∀ p ∈ ts, 1 ≤ p.1 ∧ p.1 ≤ 50 := by
        intro p hp
        exact hrange p (hperm.mem_iff.mp (hts ▸ hp))
      have hnodup2 : (ts.map Prod.fst).Nodup := by
        rw [← hts]
        exact ((hperm.map Prod.fst).nodup_iff).mpr hnodup
      constructor
      · have hmm : ts.map (fun p => make_track_id slug p.1)
            = (ts.map Prod.fst).map (make_track_id slug) := by
          rw [List.map_map]
          rfl
        rw [hmm]
        apply List.Nodup.map_on ?_ hnodup2
        intro x hx y hy hxy
        obtain ⟨p, hp, rfl⟩ := List.mem_map.mp hx
        obtain ⟨q, hq, rfl⟩ := List.mem_map.mp hy
        exact make_track_id_inj slug (hrange2 p hp).2 (hrange2 q hq).2 hxy
      · intro p _
        exact make_track_id_ne_empty slug p.1
  · intro rows
    rw [validateTracks]
    by_cases h1 : (rows.map TrackRow.track_id).Nodup
    · rw [if_neg (by simpa using h1)]
      by_cases h2 : rows.any (fun r => decide (r.track_name = ""))
      · rw [if_pos h2]
        simp only [List.any_eq_true, decide_eq_true_eq] at h2
        simp [h1, h2]
      · rw [if_neg h2]
        simp only [List.any_eq_true, decide_eq_true_eq] at h2
        push_neg at h2
        constructor
        · rintro ⟨msg, hmsg⟩
          exact absurd hmsg (by simp)
        · rintro (h | ⟨r, hr, hrr⟩)
          · exact absurd h1 h
          · exact absurd hrr (h2 r hr)
    · rw [if_pos (by simpa using h1)]
      simp [h1]

/-- C8 witness: a candidate walk with a duplicate and an out-of-range track
number yields two tracks with distinct non-empty identifiers. -/
theorem c8_witness_concrete_candidates :
    (([(2, "B"), (1, "A"), (2, "C"), (77, "X")].map
        (fun p => make_track_id "dont_be_dumb" p.1)) = [] →  False) ∧
    (([(1, "A"), (2, "B")].map (fun p => make_track_id "dont_be_dumb" p.1)).Nodup ∧
      (∀ p ∈ [((1 : Nat), "A"), (2, "B")], make_track_id "dont_be_dumb" p.1 ≠ "")) ∧
    (∀ rows : List TrackRow,
      (∃ msg, validateTracks rows = Except.error msg) ↔
        (¬ (rows.map TrackRow.track_id).Nodup ∨ ∃ r ∈ rows, r.track_name = "")) := by
  refine ⟨by decide, ?_⟩
  exact c8_track_ids_unique [(2, "B"), (1, "A"), (2, "C"), (77, "X")]
    [(1, "A"), (2, "B")] "dont_be_dumb" (by decide)

/-! ### Claim C10 -/

/-- C10: in every statistics record, `view_count` defaults to `0` when the
response omits `viewCount` (and equals the reported value otherwise), while
`like_count` and `comment_count` are null exactly when `likeCount` /
`commentCount` are missing from the response. -/
theorem c10_stats_record_asymmetry (s : List (String × Int)) :
    ((hasKey s "viewCount" = false → (yt_stats_record s).view_count = 0) ∧
      (∀ v, dictGetInt s "viewCount" = some v → (yt_stats_record s).view_count = v)) ∧
    ((yt_stats_record s).like_count = none ↔ hasKey s "likeCount" = false) ∧
    ((yt_stats_record s).comment_count = none ↔ hasKey s "commentCount" = false) := by
  refine ⟨⟨?_, ?_⟩, ?_, ?_⟩
  · intro h
    have hnone : s.find? (fun p => p.1 == "viewCount") = none := by
      cases hf : s.find? (fun p => p.1 == "viewCount") with
      | none => rfl
      | some p => rw [hasKey, hf] at h; simp at h
    rw [yt_stats_record]
    simp [dictGetInt, hnone]
  · intro v hv
    rw [yt_stats_record]
    simp [hv]
  · rw [yt_stats_record]
    cases hf : (s.find? (fun p => p.1 == "likeCount")).isSome <;> simp [hasKey, hf]
  · rw [yt_stats_record]
    cases hf : (s.find? (fun p => p.1 == "commentCount")).isSome <;> simp [hasKey, hf]

/-- C10 witness: a response item with views and comments but no likes. -/
theorem c10_witness_missing_likes :
    (yt_stats_record [("viewCount", 100), ("commentCount", 7)]).like_count = none :=
  (c10_stats_record_asymmetry [("viewCount", 100), ("commentCount", 7)]).2.1.mpr (by decide)

/-! ### Claim C4: split/join lemmas -/

theorem containsSub_cons_false {n : List Char} {c : Char} {t : List Char}
    (h : containsSub n (c :: t) = false) : containsSub n t = false := by
  rw [containsSub] at h
  exact (Bool.or_eq_false_iff.mp h).2

theorem splitNLAux_ne_nil : ∀ (l cur : List Char), splitNLAux cur l ≠ [] := by
  intro l
  induction l with
  | nil => intro cur; simp [splitNLAux]
  | cons c t ih =>
    intro cur
    rw [splitNLAux]
    split
    · simp
    · exact ih (c :: cur)

theorem splitNL_ne_nil (l : List Char) : splitNL l ≠ [] := splitNLAux_ne_nil l []

theorem splitNLAux_no_nl : ∀ (l cur : List Char), '\n' ∉ l →
    splitNLAux cur l = [cur.reverse ++ l] := by
  intro l
  induction l with
  | nil => intro cur _; simp [splitNLAux]
  | cons c t ih =>
    intro cur h
    have hc : ¬ c = '\n' := fun hEq => h (hEq ▸ List.mem_cons_self c t)
    rw [splitNLAux, if_neg hc, ih (c :: cur) (fun hm => h (List.mem_cons_of_mem _ hm))]
    simp

theorem splitNLAux_append : ∀ (m r cur : List Char), '\n' ∉ m →
    splitNLAux cur (m ++ '\n' :: r) = (cur.reverse ++ m) :: splitNLAux [] r := by
  intro m
  induction m with
  | nil =>
    intro r cur _
    rw [List.nil_append, splitNLAux, if_pos rfl]
    simp
  | cons c t ih =>
    intro r cur h
    have hc : ¬ c = '\n' := fun hEq => h (hEq ▸ List.mem_cons_self c t)
    rw [List.cons_append, splitNLAux, if_neg hc,
      ih r (c :: cur) (fun hm => h (List.mem_cons_of_mem _ hm))]
    simp

theorem joinNL_cons_cons (m x : List Char) (xs : List (List Char)) :
    joinNL (m :: x :: xs) = m ++ '\n' :: joinNL (x :: xs) := rfl

theorem splitNL_joinNL : ∀ L : List (List Char), L ≠ [] →
    (∀ ln ∈ L, '\n' ∉ ln) → splitNL (joinNL L) = L := by
  intro L
  induction L with
  | nil => intro h _; exact absurd rfl h
  | cons m ms ih =>
    intro _ hall
    cases ms with
    | nil =>
      show splitNLAux [] (joinNL [m]) = [m]
      rw [joinNL, splitNLAux_no_nl m [] (hall m (by simp))]
      rfl
    | cons x xs =>
      show splitNLAux [] (joinNL (m :: x :: xs)) = m :: x :: xs
      rw [joinNL_cons_cons, splitNLAux_append m _ [] (hall m (by simp))]
      rw [List.reverse_nil, List.nil_append]
      have hrec := ih (by simp) (fun ln hln => hall ln (List.mem_cons_of_mem _ hln))
      rw [show splitNLAux ([] : List Char) (joinNL (x :: xs))
          = splitNL (joinNL (x :: xs)) from rfl, hrec]

theorem joinNL_splitNLAux : ∀ (l cur : List Char),
    joinNL (splitNLAux cur l) = cur.reverse ++ l := by
  intro l
  induction l with
  | nil => intro cur; simp [splitNLAux, joinNL]
  | cons c t ih =>
    intro cur
    rw [splitNLAux]
    split
    · rename_i hc
      subst hc
      obtain ⟨y, ls2, hy⟩ : ∃ y ls2, splitNLAux ([] : List Char) t = y :: ls2 := by
        cases hs : splitNLAux ([] : List Char) t with
        | nil => exact absurd hs (splitNLAux_ne_nil t [])
        | cons y ls2 => exact ⟨y, ls2, rfl⟩
      have hjoin := ih []
      rw [hy] at hjoin
      rw [hy, joinNL_cons_cons, hjoin]
      simp
    · rw [ih (c :: cur)]
      simp

theorem joinNL_splitNL (l : List Char) : joinNL (splitNL l) = l := by
  have h := joinNL_splitNLAux l []
  simpa [splitNL] using h
/-! ### Claim C4: scanner identity lemmas -/

theorem normNewlines_id : ∀ l : List Char, (∀ c ∈ l, ¬ c = '\r') →
    normNewlines l = l := by
  intro l
  induction l with
  | nil => intro _; rfl
  | cons c t ih =>
    intro h
    have hc : ¬ c = '\r' := h c (by simp)
    cases t with
    | nil =>
      rw [normNewlines, if_neg hc]
    | cons d t2 =>
      rw [normNewlines, if_neg hc, ih (fun x hx => h x (List.mem_cons_of_mem _ hx))]

theorem stripHeadersGo_id : ∀ (fuel : Nat) (l : List Char), '[' ∉ l →
    stripHeadersGo fuel l = l := by
  intro fuel
  induction fuel with
  | zero => intro l _; rfl
  | succ f ih =>
    intro l h
    cases l with
    | nil => rfl
    | cons c t =>
      have hc : ¬ c = '[' := fun hEq => h (hEq ▸ List.mem_cons_self c t)
      rw [stripHeadersGo]
      rw [if_neg (by simp [hc])]
      rw [ih t (fun hm => h (List.mem_cons_of_mem _ hm))]

theorem stripHeaders_id (l : List Char) (h : '[' ∉ l) : stripHeaders l = l :=
  stripHeadersGo_id (l.length + 1) l h

theorem parenGo_id : ∀ (fuel : Nat) (l : List Char), '(' ∉ l →
    parenGo fuel l = l := by
  intro fuel
  induction fuel with
  | zero => intro l _; rfl
  | succ f ih =>
    intro l h
    cases l with
    | nil => rfl
    | cons c t =>
      have hc : ¬ c = '(' := fun hEq => h (hEq ▸ List.mem_cons_self c t)
      rw [parenGo]
      rw [if_neg (by simp [hc])]
      rw [ih t (fun hm => h (List.mem_cons_of_mem _ hm))]

theorem parenNorm_id (l : List Char) (h : '(' ∉ l) : parenNorm l = l :=
  parenGo_id (l.length + 1) l h

theorem footerScan_id (lit : List Char) :
    ∀ l : List Char, (∀ a b, l = a ++ '\n' :: b → footerMatches lit b = false) →
      footerScan lit l = l := by
  intro l
  induction l with
  | nil => intro _; rfl
  | cons c t ih =>
    intro h
    rw [footerScan]
    have hrec : footerScan lit t = t :=
      ih (fun a b hab => h (c :: a) b (by rw [hab]; rfl))
    by_cases hc : c = '\n'
    · subst hc
      have hm : footerMatches lit t = false := h [] t rfl
      rw [if_neg (by simp [hm]), hrec]
    · rw [if_neg (by simp [hc]), hrec]

theorem mem_joinNL : ∀ (L : List (List Char)) (c : Char), c ∈ joinNL L →
    c = '\n' ∨ ∃ ln ∈ L, c ∈ ln := by
  intro L
  induction L with
  | nil => intro c hc; simp [joinNL] at hc
  | cons m ms ih =>
    intro c hc
    cases ms with
    | nil =>
      rw [joinNL] at hc
      exact Or.inr ⟨m, by simp, hc⟩
    | cons x xs =>
      rw [joinNL_cons_cons] at hc
      rcases List.mem_append.mp hc with h | h
      · exact Or.inr ⟨m, by simp, h⟩
      · rcases List.mem_cons.mp h with h2 | h2
        · exact Or.inl h2
        · rcases ih c h2 with h3 | ⟨ln, hln, hcln⟩
          · exact Or.inl h3
          · exact Or.inr ⟨ln, List.mem_cons_of_mem _ hln, hcln⟩

theorem head?_joinNL (m : List Char) (ms : List (List Char)) (hm : m ≠ []) :
    (joinNL (m :: ms)).head? = m.head? := by
  cases ms with
  | nil => rfl
  | cons x xs =>
    rw [joinNL_cons_cons]
    cases m with
    | nil => exact absurd rfl hm
    | cons c t => rfl

theorem getLast?_cons_of_ne_nil (c : Char) (l : List Char) (h : l ≠ []) :
    (c :: l).getLast? = l.getLast? := by
  cases l with
  | nil => exact absurd rfl h
  | cons d t => rw [List.getLast?_cons_cons]

theorem joinNL_ne_nil (m : List Char) (ms : List (List Char)) (hm : m ≠ []) :
    joinNL (m :: ms) ≠ [] := by
  cases ms with
  | nil => rw [joinNL]; exact hm
  | cons x xs =>
    rw [joinNL_cons_cons]
    cases m with
    | nil => exact absurd rfl hm
    | cons c t => simp

theorem getLast?_joinNL : ∀ (L : List (List Char)), (∀ ln ∈ L, ln ≠ []) →
    ∀ m, L.getLast? = some m → (joinNL L).getLast? = m.getLast? := by
  intro L
  induction L with
  | nil => intro _ m hm; simp at hm
  | cons x xs ih =>
    intro hall m hm
    cases xs with
    | nil =>
      simp only [List.getLast?_singleton, Option.some_inj] at hm
      subst hm
      rfl
    | cons y ys =>
      have hm2 : (y :: ys).getLast? = some m := by
        rw [← hm, List.getLast?_cons_cons]
      rw [joinNL_cons_cons, List.getLast?_append,
        getLast?_cons_of_ne_nil _ _ (joinNL_ne_nil y ys (hall y (by simp))),
        ih (fun ln hln => hall ln (List.mem_cons_of_mem _ hln)) m hm2]
      have hmem : m ∈ y :: ys := by
        obtain ⟨hne, hEq⟩ := List.mem_getLast?_eq_getLast (l := y :: ys) (x := m) (by rw [hm2]; rfl)
        rw [hEq]
        exact List.getLast_mem hne
      have hmne : m ≠ [] := hall m (List.mem_cons_of_mem _ hmem)
      cases hv : m.getLast? with
      | none =>
        rw [List.getLast?_eq_none_iff] at hv
        exact absurd hv hmne
      | some v => rfl
/-! ### Claim C4: footer no-match lemmas -/

theorem isPrefixOf_iff_starts : ∀ (l l2 : List Char), l.isPrefixOf l2 = true ↔ l <+: l2 := by
  intro l
  induction l with
  | nil => intro l2; simp [List.isPrefixOf]
  | cons c t ih =>
    intro l2
    cases l2 with
    | nil => simp [List.isPrefixOf]
    | cons d t2 =>
      rw [List.isPrefixOf]
      constructor
      · intro h
        obtain ⟨h1, h2⟩ := Bool.and_eq_true_iff.mp h
        have hc : c = d := by simpa using h1
        subst hc
        exact (List.prefix_cons_inj c).mpr ((ih t2).mp h2)
      · intro h
        obtain ⟨r, hr⟩ := h
        injection hr with hr1 hr2
        subst hr1
        rw [Bool.and_eq_true_iff]
        exact ⟨by simp, (ih t2).mpr ⟨r, hr2⟩⟩

theorem take_beq_iff_starts (lit x : List Char) :
    (lowerL (x.take lit.length) == lit) = true ↔ lit <+: lowerL x := by
  have hmt : lowerL (x.take lit.length) = (lowerL x).take lit.length := by
    simp [lowerL]
  rw [beq_iff_eq, hmt]
  constructor
  · intro h
    refine ⟨(lowerL x).drop lit.length, ?_⟩
    nth_rewrite 1 [← h]
    exact List.take_append_drop _ _
  · rintro ⟨r, hr⟩
    rw [← hr]
    exact List.take_left lit r

theorem not_prefix_append_cons {n a b : List Char} {c : Char}
    (hc : c ∉ n) (h : ¬ n <+: a) : ¬ n <+: (a ++ c :: b) := by
  induction n generalizing a with
  | nil => exact absurd (List.nil_prefix) h
  | cons x n2 ih =>
    cases a with
    | nil =>
      intro hcontra
      obtain ⟨r, hr⟩ := hcontra
      rw [List.nil_append] at hr
      injection hr with h1 _
      exact hc (h1 ▸ List.mem_cons_self x n2)
    | cons y a2 =>
      intro hcontra
      obtain ⟨r, hr⟩ := hcontra
      rw [List.cons_append] at hr
      injection hr with h1 h2
      subst h1
      have hna : ¬ n2 <+: a2 := fun hp => h ((List.prefix_cons_inj x).mpr hp)
      exact ih (fun hm => hc (List.mem_cons_of_mem _ hm)) hna ⟨r, h2⟩

theorem lowerL_append (a b : List Char) : lowerL (a ++ b) = lowerL a ++ lowerL b := by
  simp [lowerL]

theorem footerMatches_false_of_lines (lit : List Char) (hnl : '\n' ∉ lit) :
    ∀ (M : List (List Char)),
      (∀ ln ∈ M, ln ≠ [] ∧ (∀ c, ln.head? = some c → isPyWs c = false) ∧
        lit.isPrefixOf (lowerL ln) = false) →
      M ≠ [] → footerMatches lit (joinNL M) = false := by
  intro M hM hMne
  cases M with
  | nil => exact absurd rfl hMne
  | cons m ms =>
    obtain ⟨hmne, hmhead, hmpre⟩ := hM m (by simp)
    obtain ⟨c, t, rfl⟩ : ∃ c t, m = c :: t := by
      cases m with
      | nil => exact absurd rfl hmne
      | cons c t => exact ⟨c, t, rfl⟩
    have hcws : isPyWs c = false := hmhead c rfl
    have hpre : ¬ lit <+: lowerL (c :: t) := by
      intro hp
      rw [(isPrefixOf_iff_starts lit (lowerL (c :: t))).symm.mp hp] at hmpre
      exact Bool.noConfusion hmpre
    rw [footerMatches]
    have hdrop : (joinNL ((c :: t) :: ms)).dropWhile isPyWs = joinNL ((c :: t) :: ms) := by
      cases ms with
      | nil => rw [joinNL, List.dropWhile_cons, hcws]; rfl
      | cons x xs =>
        rw [joinNL_cons_cons, List.cons_append, List.dropWhile_cons, hcws]
        rfl
    rw [hdrop]
    have hfirst : (lowerL ((joinNL ((c :: t) :: ms)).take lit.length) == lit) = false := by
      rcases Bool.eq_false_or_eq_true (lowerL ((joinNL ((c :: t) :: ms)).take lit.length) == lit)
        with hb | hb
      swap
      · exact hb
      · exfalso
        have hp := (take_beq_iff_starts lit (joinNL ((c :: t) :: ms))).mp hb
        cases ms with
        | nil =>
          rw [joinNL] at hp
          exact hpre hp
        | cons x xs =>
          rw [joinNL_cons_cons, lowerL_append] at hp
          have : lowerL ('\n' :: joinNL (x :: xs))
              = '\n' :: lowerL (joinNL (x :: xs)) := rfl
          rw [this] at hp
          exact not_prefix_append_cons (n := lit) (a := lowerL (c :: t)) hnl hpre hp
    rw [hfirst]
    rfl
theorem append_cons_nl_split : ∀ (m r a b : List Char), '\n' ∉ m →
    m ++ '\n' :: r = a ++ '\n' :: b →
    (a = m ∧ b = r) ∨ (∃ a2, a = m ++ '\n' :: a2 ∧ r = a2 ++ '\n' :: b) := by
  intro m
  induction m with
  | nil =>
    intro r a b _ h
    cases a with
    | nil =>
      rw [List.nil_append, List.nil_append] at h
      injection h with _ h2
      exact Or.inl ⟨rfl, h2.symm⟩
    | cons c a2 =>
      rw [List.nil_append, List.cons_append] at h
      injection h with h1 h2
      exact Or.inr ⟨a2, by rw [← h1]; rfl, h2⟩
  | cons d m2 ih =>
    intro r a b hm h
    have hd : d ≠ '\n' := fun hEq => hm (hEq ▸ List.mem_cons_self d m2)
    cases a with
    | nil =>
      rw [List.cons_append, List.nil_append] at h
      injection h with h1 _
      exact absurd h1 hd
    | cons c a2 =>
      rw [List.cons_append, List.cons_append] at h
      injection h with h1 h2
      subst h1
      rcases ih r a2 b (fun hmem => hm (List.mem_cons_of_mem _ hmem)) h2 with
        ⟨ha, hb⟩ | ⟨a3, ha3, hr3⟩
      · exact Or.inl ⟨by rw [ha], hb⟩
      · exact Or.inr ⟨a3, by rw [ha3]; rfl, hr3⟩

theorem joinNL_decomp : ∀ (L : List (List Char)), (∀ ln ∈ L, '\n' ∉ ln) →
    ∀ a b, joinNL L = a ++ '\n' :: b →
      ∃ M, M ≠ [] ∧ b = joinNL M ∧ ∀ ln ∈ M, ln ∈ L := by
  intro L
  induction L with
  | nil =>
    intro _ a b h
    rw [joinNL] at h
    exact absurd h.symm (List.append_ne_nil_of_right_ne_nil a (by simp))
  | cons m ms ih =>
    intro hall a b h
    cases ms with
    | nil =>
      rw [joinNL] at h
      exfalso
      apply hall m (by simp)
      rw [h]
      exact List.mem_append.mpr (Or.inr (by simp))
    | cons x xs =>
      rw [joinNL_cons_cons] at h
      rcases append_cons_nl_split m (joinNL (x :: xs)) a b (hall m (by simp)) h with
        ⟨_, hb⟩ | ⟨a2, _, hr⟩
      · exact ⟨x :: xs, by simp, hb, fun ln hln => List.mem_cons_of_mem _ hln⟩
      · obtain ⟨M, hMne, hMb, hMmem⟩ :=
          ih (fun ln hln => hall ln (List.mem_cons_of_mem _ hln)) a2 b hr
        exact ⟨M, hMne, hMb, fun ln hln => List.mem_cons_of_mem _ (hMmem ln hln)⟩

theorem noFooter_of_safe_lines (lit : List Char) (hnl : '\n' ∉ lit)
    (L : List (List Char)) (hLne : L ≠ [])
    (hL : ∀ ln ∈ L, ln ≠ [] ∧ '\n' ∉ ln ∧
      (∀ c, ln.head? = some c → isPyWs c = false) ∧
      lit.isPrefixOf (lowerL ln) = false) :
    ∀ a b, '\n' :: joinNL L = a ++ '\n' :: b → footerMatches lit b = false := by
  intro a b h
  have hlines : ∀ M : List (List Char), M ≠ [] → (∀ ln ∈ M, ln ∈ L) →
      footerMatches lit (joinNL M) = false := by
    intro M hMne hMsub
    exact footerMatches_false_of_lines lit hnl M
      (fun ln hln => ⟨(hL ln (hMsub ln hln)).1, (hL ln (hMsub ln hln)).2.2.1,
        (hL ln (hMsub ln hln)).2.2.2⟩) hMne
  cases a with
  | nil =>
    rw [List.nil_append] at h
    injection h with _ h2
    rw [← h2]
    exact hlines L hLne (fun ln hln => hln)
  | cons c a2 =>
    rw [List.cons_append] at h
    injection h with _ h2
    obtain ⟨M, hMne, hMb, hMmem⟩ :=
      joinNL_decomp L (fun ln hln => (hL ln hln).2.1) a2 b h2
    rw [hMb]
    exact hlines M hMne hMmem
/-! ### Claim C4: whitespace and filter lemmas -/

theorem stripWs_id (l : List Char)
    (hhead : ∀ c, l.head? = some c → isPyWs c = false)
    (hlast : ∀ c, l.getLast? = some c → isPyWs c = false) :
    stripWs l = l := by
  cases l with
  | nil => rfl
  | cons c t =>
    have hc : isPyWs c = false := hhead c rfl
    rw [stripWs, List.dropWhile_cons, hc]
    simp only [Bool.false_eq_true, if_false]
    obtain ⟨d, r, hrev⟩ : ∃ d r, (c :: t).reverse = d :: r := by
      cases hr : (c :: t).reverse with
      | nil => exact absurd (List.reverse_eq_nil_iff.mp hr) (by simp)
      | cons d r => exact ⟨d, r, rfl⟩
    have hd : isPyWs d = false := by
      apply hlast
      rw [← List.head?_reverse, hrev]
      rfl
    rw [hrev, List.dropWhile_cons, hd]
    simp only [Bool.false_eq_true, if_false]
    rw [← hrev, List.reverse_reverse]

theorem head_ne_space_of_no_double (t : List Char)
    (h : containsSub [' ', ' '] (' ' :: t) = false) : t.head? ≠ some ' ' := by
  intro hc
  cases t with
  | nil => simp at hc
  | cons d t2 =>
    have hd : d = ' ' := by simpa using hc
    subst hd
    rw [containsSub] at h
    have hp : ([' ', ' '] : List Char).isPrefixOf (' ' :: ' ' :: t2) = true := by
      simp [List.isPrefixOf]
    rw [hp] at h
    simp at h

theorem goCS_skip (c : Char) (t : List Char) (b : Bool)
    (hc : (c = ' ' || c = '\t') = false) : goCS b (c :: t) = c :: goCS false t := by
  rw [goCS]
  simp only [hc]
  rfl

theorem goCS_id : ∀ l : List Char, (∀ c ∈ l, ¬ c = '\t') →
    containsSub [' ', ' '] l = false →
    (goCS false l = l ∧ (l.head? ≠ some ' ' → goCS true l = l)) := by
  intro l
  induction l with
  | nil => exact fun _ _ => ⟨rfl, fun _ => rfl⟩
  | cons c t ih =>
    intro htab hdbl
    have htab2 : ∀ x ∈ t, ¬ x = '\t' := fun x hx => htab x (List.mem_cons_of_mem _ hx)
    have hdbl2 : containsSub [' ', ' '] t = false := containsSub_cons_false hdbl
    by_cases hc : c = ' '
    · subst hc
      have hthead : t.head? ≠ some ' ' := head_ne_space_of_no_double t hdbl
      have hrec := (ih htab2 hdbl2).2 hthead
      constructor
      · rw [goCS]
        rw [show ((' ' = ' ' || ' ' = '\t') : Bool) = true by decide]
        simp only [if_true]
        rw [hrec]
        simp
      · intro hh
        exact absurd (show (' ' :: t).head? = some ' ' from rfl) hh
    · have hct : (c = ' ' || c = '\t') = false := by
        have := htab c (by simp)
        simp [hc, this]
      have hrec := (ih htab2 hdbl2).1
      refine ⟨?_, fun _ => ?_⟩
      · rw [goCS_skip c t false hct, hrec]
      · rw [goCS_skip c t true hct, hrec]

theorem goCS_append : ∀ (m : List Char), (∀ c ∈ m, ¬ c = '\t') →
    containsSub [' ', ' '] m = false →
    ∀ r : List Char,
      (goCS false (m ++ '\n' :: r) = m ++ '\n' :: goCS false r ∧
        (m.head? ≠ some ' ' → goCS true (m ++ '\n' :: r) = m ++ '\n' :: goCS false r)) := by
  intro m
  induction m with
  | nil =>
    intro _ _ r
    constructor
    · rw [List.nil_append, goCS_skip '\n' r false (by decide)]
      rfl
    · intro _
      rw [List.nil_append, goCS_skip '\n' r true (by decide)]
      rfl
  | cons c t ih =>
    intro htab hdbl r
    have htab2 : ∀ x ∈ t, ¬ x = '\t' := fun x hx => htab x (List.mem_cons_of_mem _ hx)
    have hdbl2 : containsSub [' ', ' '] t = false := containsSub_cons_false hdbl
    by_cases hc : c = ' '
    · subst hc
      have hthead : t.head? ≠ some ' ' := head_ne_space_of_no_double t hdbl
      have hrec := (ih htab2 hdbl2 r).2 hthead
      constructor
      · rw [List.cons_append, goCS]
        rw [show ((' ' = ' ' || ' ' = '\t') : Bool) = true by decide]
        simp only [if_true]
        rw [hrec]
        simp
      · intro hh
        exact absurd (show (' ' :: t).head? = some ' ' from rfl) hh
    · have hct : (c = ' ' || c = '\t') = false := by
        have := htab c (by simp)
        simp [hc, this]
      have hrec := (ih htab2 hdbl2 r).1
      refine ⟨?_, fun _ => ?_⟩
      · rw [List.cons_append, goCS_skip c _ false hct, hrec]
        simp
      · rw [List.cons_append, goCS_skip c _ true hct, hrec]
        simp

theorem goCS_joinNL : ∀ L : List (List Char),
    (∀ ln ∈ L, (∀ c ∈ ln, ¬ c = '\t') ∧ containsSub [' ', ' '] ln = false) →
    goCS false (joinNL L) = joinNL L := by
  intro L
  induction L with
  | nil => intro _; rfl
  | cons m ms ih =>
    intro hall
    obtain ⟨htab, hdbl⟩ := hall m (by simp)
    cases ms with
    | nil =>
      rw [joinNL]
      exact (goCS_id m htab hdbl).1
    | cons x xs =>
      rw [joinNL_cons_cons, (goCS_append m htab hdbl (joinNL (x :: xs))).1,
        ih (fun ln hln => hall ln (List.mem_cons_of_mem _ hln))]

theorem goCN_skip (c : Char) (t : List Char) (k : Nat) (hc : ¬ c = '\n') :
    goCN k (c :: t) = c :: goCN 0 t := by
  rw [goCN]
  simp [hc]

theorem goCN_no_nl : ∀ l : List Char, '\n' ∉ l → ∀ k, goCN k l = l := by
  intro l
  induction l with
  | nil => intro _ _; rfl
  | cons c t ih =>
    intro h k
    have hc : ¬ c = '\n' := fun hEq => h (hEq ▸ List.mem_cons_self c t)
    rw [goCN_skip c t k hc, ih (fun hm => h (List.mem_cons_of_mem _ hm)) 0]

theorem goCN_append : ∀ m : List Char, m ≠ [] → '\n' ∉ m →
    ∀ (r : List Char) (k : Nat), goCN k (m ++ r) = m ++ goCN 0 r := by
  intro m
  induction m with
  | nil => intro h _ _ _; exact absurd rfl h
  | cons c t ih =>
    intro _ hm r k
    have hc : ¬ c = '\n' := fun hEq => hm (hEq ▸ List.mem_cons_self c t)
    cases t with
    | nil =>
      rw [List.cons_append, List.nil_append, goCN_skip c r k hc]
      rfl
    | cons d t2 =>
      rw [List.cons_append, goCN_skip c _ k hc,
        ih (by simp) (fun hmem => hm (List.mem_cons_of_mem _ hmem)) r 0]
      rfl

theorem goCN_joinNL : ∀ L : List (List Char),
    (∀ ln ∈ L, ln ≠ [] ∧ '\n' ∉ ln) → ∀ k, k ≤ 1 →
    goCN k (joinNL L) = joinNL L := by
  intro L
  induction L with
  | nil => intro _ _ _; rfl
  | cons m ms ih =>
    intro hall k _
    obtain ⟨hmne, hmnl⟩ := hall m (by simp)
    cases ms with
    | nil =>
      rw [joinNL]
      exact goCN_no_nl m hmnl k
    | cons x xs =>
      rw [joinNL_cons_cons, goCN_append m hmne hmnl _ k]
      rw [show goCN 0 ('\n' :: joinNL (x :: xs)) = '\n' :: goCN 1 (joinNL (x :: xs)) by
        rw [goCN]; rfl]
      rw [ih (fun ln hln => hall ln (List.mem_cons_of_mem _ hln)) 1 (le_refl 1)]

theorem looksLikeDescriptionLine_nil (tn : List Char) :
    looksLikeDescriptionLine tn [] = false := by
  rw [looksLikeDescriptionLine]
  rfl

theorem dropLine_nil (tn : List Char) : dropLine tn [] = true := by
  rw [dropLine]
  rfl

theorem topFilter_id (tn : List Char) : ∀ (lines : List (List Char)) (k : Nat),
    (∀ ln ∈ lines, looksLikeDescriptionLine tn ln = false) →
    topFilter tn k lines = lines := by
  intro lines
  induction lines with
  | nil => intro k _; rfl
  | cons ln rest ih =>
    intro k hall
    rw [topFilter]
    by_cases hk : k = 0
    · rw [if_pos hk]
    · rw [if_neg hk]
      by_cases hemp : (stripWs ln).isEmpty
      · rw [if_pos hemp, ih k (fun x hx => hall x (List.mem_cons_of_mem _ hx))]
      · rw [if_neg hemp, hall ln (by simp)]
        simp only [Bool.false_eq_true, if_false]
        rw [ih (k - 1) (fun x hx => hall x (List.mem_cons_of_mem _ hx))]

theorem filter_keep_all {p : List Char → Bool} : ∀ L : List (List Char),
    (∀ ln ∈ L, p ln = true) → L.filter p = L := by
  intro L
  induction L with
  | nil => intro _; rfl
  | cons ln rest ih =>
    intro hall
    rw [List.filter_cons, if_pos (hall ln (by simp)),
      ih (fun x hx => hall x (List.mem_cons_of_mem _ hx))]
/-! ### Claim C4: safe-line facts -/

theorem bool_eq_false_of_not {b : Bool} (h : (!b) = true) : b = false := by
  cases b with
  | false => rfl
  | true => exact absurd h (by decide)

theorem mem_of_head?_eq (l : List Char) (c : Char) (h : l.head? = some c) : c ∈ l := by
  cases l with
  | nil => simp at h
  | cons d t =>
    have : d = c := by simpa using h
    rw [← this]
    simp

theorem mem_of_getLast?_eq (l : List Char) (c : Char) (h : l.getLast? = some c) : c ∈ l := by
  obtain ⟨hne, hEq⟩ := List.mem_getLast?_eq_getLast (l := l) (x := c) (by rw [h]; rfl)
  rw [hEq]
  exact List.getLast_mem hne

theorem not_mem_of_contains_false {l : List Char} {c : Char}
    (h : l.contains c = false) : c ∉ l := by
  intro hm
  have he : l.contains c = true := by
    show l.elem c = true
    exact List.elem_iff.mpr hm
  rw [he] at h
  exact Bool.noConfusion h

theorem safeLine_facts {tn ln : List Char} (h : safeLine tn ln = true) :
    ln ≠ [] ∧ (∀ c ∈ ln, isPyWs c = true → c = ' ') ∧
    (∀ c, ln.head? = some c → isPyWs c = false) ∧
    (∀ c, ln.getLast? = some c → isPyWs c = false) ∧
    containsSub [' ', ' '] ln = false ∧ '[' ∉ ln ∧ '(' ∉ ln ∧
    youMightLit.isPrefixOf (lowerL ln) = false ∧
    embedLit.isPrefixOf (lowerL ln) = false ∧
    looksLikeDescriptionLine tn ln = false ∧ dropLine tn ln = false ∧
    looksLikeDescriptionAnywhere tn ln = false := by
  rw [safeLine] at h
  repeat rw [Bool.and_eq_true] at h
  obtain ⟨⟨⟨⟨⟨⟨⟨⟨⟨⟨⟨h1, h2⟩, h3⟩, h4⟩, h5⟩, h6⟩, h7⟩, h8⟩, h9⟩, h10⟩, h11⟩, h12⟩ := h
  have g1 : ln ≠ [] := by
    intro hEq
    rw [hEq] at h1
    exact absurd h1 (by decide)
  have g2 : ∀ c ∈ ln, isPyWs c = true → c = ' ' := by
    intro c hc hws
    have := List.all_eq_true.mp h2 c hc
    rw [hws] at this
    simpa using this
  have g3 : ∀ c, ln.head? = some c → isPyWs c = false := by
    intro c hc
    rcases Bool.eq_false_or_eq_true (isPyWs c) with hb | hb
    · exfalso
      have hcs : c = ' ' := g2 c (mem_of_head?_eq ln c hc) hb
      rw [hcs] at hc
      rw [hc] at h3
      exact absurd h3 (by decide)
    · exact hb
  have g4 : ∀ c, ln.getLast? = some c → isPyWs c = false := by
    intro c hc
    rcases Bool.eq_false_or_eq_true (isPyWs c) with hb | hb
    · exfalso
      have hcs : c = ' ' := g2 c (mem_of_getLast?_eq ln c hc) hb
      rw [hcs] at hc
      rw [hc] at h4
      exact absurd h4 (by decide)
    · exact hb
  refine ⟨g1, g2, g3, g4, bool_eq_false_of_not h5,
    not_mem_of_contains_false (bool_eq_false_of_not h6),
    not_mem_of_contains_false (bool_eq_false_of_not h7),
    bool_eq_false_of_not h8, bool_eq_false_of_not h9,
    bool_eq_false_of_not h10, bool_eq_false_of_not h11, bool_eq_false_of_not h12⟩
/-! ### Claim C4: the pipeline fixes safe texts -/

theorem map_id_of_fix (L : List (List Char)) (f : List Char → List Char)
    (h : ∀ x ∈ L, f x = x) : L.map f = L := by
  induction L with
  | nil => rfl
  | cons x t ih =>
    rw [List.map_cons, h x (by simp), ih (fun y hy => h y (List.mem_cons_of_mem _ hy))]

theorem getLast?_mem_of_eq {α : Type} (l : List α) (c : α) (h : l.getLast? = some c) :
    c ∈ l := by
  obtain ⟨hne, hEq⟩ := List.mem_getLast?_eq_getLast (l := l) (x := c) (by rw [h]; rfl)
  rw [hEq]
  exact List.getLast_mem hne

theorem clean_lyrics_text_fixes_safe (t : String) (L : List (List Char)) (hL : L ≠ [])
    (hsafe : ∀ ln ∈ L, safeLine (normForTitleMatch t.data) ln = true) :
    clean_lyrics_text (String.mk ('\n' :: joinNL L)) t = String.mk ('\n' :: joinNL L) := by
  have hfacts := fun ln hln => safeLine_facts (hsafe ln hln)
  have hne : ∀ ln ∈ L, ln ≠ [] := fun ln hln => (hfacts ln hln).1
  have hws : ∀ ln ∈ L, ∀ c ∈ ln, isPyWs c = true → c = ' ' :=
    fun ln hln => (hfacts ln hln).2.1
  have hnl : ∀ ln ∈ L, '\n' ∉ ln := by
    intro ln hln hm
    exact absurd (hws ln hln '\n' hm (by decide)) (by decide)
  have hcr : ∀ ln ∈ L, '\r' ∉ ln := by
    intro ln hln hm
    exact absurd (hws ln hln '\r' hm (by decide)) (by decide)
  have htab : ∀ ln ∈ L, ∀ c ∈ ln, ¬ c = '\t' := by
    intro ln hln c hc hEq
    subst hEq
    exact absurd (hws ln hln '\t' hc (by decide)) (by decide)
  have hhead : ∀ ln ∈ L, ∀ c, ln.head? = some c → isPyWs c = false :=
    fun ln hln => (hfacts ln hln).2.2.1
  have hlast : ∀ ln ∈ L, ∀ c, ln.getLast? = some c → isPyWs c = false :=
    fun ln hln => (hfacts ln hln).2.2.2.1
  have hdbl : ∀ ln ∈ L, containsSub [' ', ' '] ln = false :=
    fun ln hln => (hfacts ln hln).2.2.2.2.1
  have hlbr : ∀ ln ∈ L, '[' ∉ ln := fun ln hln => (hfacts ln hln).2.2.2.2.2.1
  have hlpar : ∀ ln ∈ L, '(' ∉ ln := fun ln hln => (hfacts ln hln).2.2.2.2.2.2.1
  have hym : ∀ ln ∈ L, youMightLit.isPrefixOf (lowerL ln) = false :=
    fun ln hln => (hfacts ln hln).2.2.2.2.2.2.2.1
  have hem : ∀ ln ∈ L, embedLit.isPrefixOf (lowerL ln) = false :=
    fun ln hln => (hfacts ln hln).2.2.2.2.2.2.2.2.1
  have hdesc : ∀ ln ∈ L, looksLikeDescriptionLine (normForTitleMatch t.data) ln = false :=
    fun ln hln => (hfacts ln hln).2.2.2.2.2.2.2.2.2.1
  have hdrop : ∀ ln ∈ L, dropLine (normForTitleMatch t.data) ln = false :=
    fun ln hln => (hfacts ln hln).2.2.2.2.2.2.2.2.2.2.1
  have hany : ∀ ln ∈ L, looksLikeDescriptionAnywhere (normForTitleMatch t.data) ln = false :=
    fun ln hln => (hfacts ln hln).2.2.2.2.2.2.2.2.2.2.2
  have hmemtext : ∀ c : Char, c ∈ ('\n' :: joinNL L) → c = '\n' ∨ ∃ ln ∈ L, c ∈ ln := by
    intro c hc
    rcases List.mem_cons.mp hc with h | h
    · exact Or.inl h
    · exact mem_joinNL L c h
  have h1 : normNewlines ('\n' :: joinNL L) = '\n' :: joinNL L := by
    apply normNewlines_id
    intro c hc hEq
    subst hEq
    rcases hmemtext '\r' hc with h | ⟨ln, hln, hcln⟩
    · exact absurd h (by decide)
    · exact hcr ln hln hcln
  have h2 : stripHeaders ('\n' :: joinNL L) = '\n' :: joinNL L := by
    apply stripHeaders_id
    intro hc
    rcases hmemtext '[' hc with h | ⟨ln, hln, hcln⟩
    · exact absurd h (by decide)
    · exact hlbr ln hln hcln
  have h3 : parenNorm ('\n' :: joinNL L) = '\n' :: joinNL L := by
    apply parenNorm_id
    intro hc
    rcases hmemtext '(' hc with h | ⟨ln, hln, hcln⟩
    · exact absurd h (by decide)
    · exact hlpar ln hln hcln
  have h4 : footerScan youMightLit ('\n' :: joinNL L) = '\n' :: joinNL L := by
    apply footerScan_id
    apply noFooter_of_safe_lines youMightLit (by decide) L hL
    intro ln hln
    exact ⟨hne ln hln, hnl ln hln, hhead ln hln, hym ln hln⟩
  have h5 : footerScan embedLit ('\n' :: joinNL L) = '\n' :: joinNL L := by
    apply footerScan_id
    apply noFooter_of_safe_lines embedLit (by decide) L hL
    intro ln hln
    exact ⟨hne ln hln, hnl ln hln, hhead ln hln, hem ln hln⟩
  have hpre : preLineText ('\n' :: joinNL L) = '\n' :: joinNL L := by
    rw [preLineText, h1, h2, h3, h4, h5]
  have hsplit : splitNL ('\n' :: joinNL L) = [] :: L := by
    show splitNLAux [] ('\n' :: joinNL L) = [] :: L
    rw [splitNLAux, if_pos rfl]
    rw [show splitNLAux ([] : List Char) (joinNL L) = splitNL (joinNL L) from rfl]
    rw [splitNL_joinNL L hL hnl]
    rfl
  have hstripid : ∀ ln ∈ L, stripWs ln = ln :=
    fun ln hln => stripWs_id ln (hhead ln hln) (hlast ln hln)
  have hmap : ([] :: L).map stripWs = [] :: L := by
    rw [List.map_cons]
    rw [show stripWs ([] : List Char) = [] from rfl]
    rw [map_id_of_fix L stripWs hstripid]
  have htopf : topFilter (normForTitleMatch t.data) 8 ([] :: L) = [] :: L := by
    apply topFilter_id
    intro ln hln
    rcases List.mem_cons.mp hln with h | h
    · rw [h]
      exact looksLikeDescriptionLine_nil _
    · exact hdesc ln h
  have hjoin2 : joinNL ([] :: L) = '\n' :: joinNL L := by
    cases L with
    | nil => exact absurd rfl hL
    | cons m ms => rfl
  have hfil1 : ([] :: L).filter (fun ln => !dropLine (normForTitleMatch t.data) ln) = L := by
    rw [List.filter_cons]
    simp only [dropLine_nil, Bool.not_true, Bool.false_eq_true, if_false]
    exact filter_keep_all L (fun ln hln => by rw [hdrop ln hln]; rfl)
  have hfil2 : L.filter (fun ln => !looksLikeDescriptionAnywhere (normForTitleMatch t.data) ln) = L :=
    filter_keep_all L (fun ln hln => by rw [hany ln hln]; rfl)
  have hkept : keptLines (normForTitleMatch t.data) ('\n' :: joinNL L) = L := by
    rw [keptLines, hsplit, hmap, htopf, hjoin2, hsplit, hmap, hfil1, hfil2]
  have hjoinhead : ∀ c, (joinNL L).head? = some c → isPyWs c = false := by
    intro c hc
    cases L with
    | nil => exact absurd rfl hL
    | cons m ms =>
      rw [head?_joinNL m ms (hne m (by simp))] at hc
      exact hhead m (by simp) c hc
  have hjoinlast : ∀ c, (joinNL L).getLast? = some c → isPyWs c = false := by
    intro c hc
    cases hgl : L.getLast? with
    | none =>
      rw [List.getLast?_eq_none_iff] at hgl
      exact absurd hgl hL
    | some m =>
      rw [getLast?_joinNL L hne m hgl] at hc
      exact hlast m (getLast?_mem_of_eq L m hgl) c hc
  have hnw : normalize_whitespace (joinNL L) = joinNL L := by
    rw [normalize_whitespace]
    rw [normNewlines_id (joinNL L) (fun c hc hEq => by
      subst hEq
      rcases mem_joinNL L '\r' hc with h | ⟨ln, hln, hcln⟩
      · exact absurd h (by decide)
      · exact hcr ln hln hcln)]
    rw [goCS_joinNL L (fun ln hln => ⟨htab ln hln, hdbl ln hln⟩)]
    rw [goCN_joinNL L (fun ln hln => ⟨hne ln hln, hnl ln hln⟩) 0 (by omega)]
    exact stripWs_id (joinNL L) hjoinhead hjoinlast
  have hnestr : ¬ (String.mk ('\n' :: joinNL L) = "") := by
    intro hEq
    have hd := congrArg String.data hEq
    simp at hd
  rw [clean_lyrics_text, if_neg hnestr]
  show String.mk ('\n' :: stripWs (normalize_whitespace (joinNL
      (keptLines (normForTitleMatch t.data) (preLineText ('\n' :: joinNL L)))))) = _
  rw [hpre, hkept, hnw, stripWs_id (joinNL L) hjoinhead hjoinlast]
/-- C4 counterexample: on an input whose first line is the footer marker
`You might also like`, the first cleaning pass keeps the line (the footer
regex requires a preceding newline), but the second pass removes it — so
`clean_lyrics_text` is not idempotent. -/
theorem c4_counterexample_not_idempotent :
    clean_lyrics_text footerFirstInput "t" = "\nYou might also like\nfoo" ∧
      clean_lyrics_text (clean_lyrics_text footerFirstInput "t") "t" = "\n" ∧
      clean_lyrics_text (clean_lyrics_text footerFirstInput "t") "t" ≠
        clean_lyrics_text footerFirstInput "t" := by
  refine ⟨by decide, by decide, by decide⟩

/-- C4 (amended): `clean_lyrics_text` is not idempotent in general, but
re-running it on its own output changes nothing whenever every line of the
first output is free of the stripped boilerplate patterns (`safeLine`):
no bracket headers, parentheses, footer markers, description-like phrasing,
title echoes, or collapsible whitespace remain. -/
theorem c4_clean_idempotent_on_safe_output (raw t : String)
    (h : ∀ ln ∈ splitNL ((clean_lyrics_text raw t).data.drop 1),
      safeLine (normForTitleMatch t.data) ln = true) :
    clean_lyrics_text (clean_lyrics_text raw t) t = clean_lyrics_text raw t := by
  by_cases hraw : raw = ""
  · subst hraw
    rfl
  · have hform : clean_lyrics_text raw t
        = String.mk ('\n' :: stripWs (normalize_whitespace (joinNL
            (keptLines (normForTitleMatch t.data) (preLineText raw.data))))) := by
      rw [clean_lyrics_text, if_neg hraw]
    set B := stripWs (normalize_whitespace (joinNL
      (keptLines (normForTitleMatch t.data) (preLineText raw.data)))) with hB
    have hdrop1 : (clean_lyrics_text raw t).data.drop 1 = B := by
      rw [hform]
      rfl
    have hsafe : ∀ ln ∈ splitNL B, safeLine (normForTitleMatch t.data) ln = true := by
      intro ln hln
      exact h ln (by rw [hdrop1]; exact hln)
    have hjoin : joinNL (splitNL B) = B := joinNL_splitNL B
    have hLne : splitNL B ≠ [] := splitNL_ne_nil B
    have hfix := clean_lyrics_text_fixes_safe t (splitNL B) hLne hsafe
    rw [hjoin] at hfix
    rw [hform]
    exact hfix

/-- C4 witness: the cleaned chorus input has only safe lines, so a second
cleaning pass leaves it unchanged. -/
theorem c4_witness_chorus_output_stable :
    clean_lyrics_text (clean_lyrics_text chorusInput "xyz") "xyz"
      = clean_lyrics_text chorusInput "xyz" :=
  c4_clean_idempotent_on_safe_output chorusInput "xyz" (by decide)








end MusicPipeline

